import Mathlib

/-!
Verification of the CSV contact-list cleaning pipeline in `clean.py`.

Strings are modelled as `List Char` (ASCII semantics for `str.lower`,
`str.strip`, `str.split` and the regex character classes, which is exactly
the character range the source's regex and keyword lists use).
A cell of the loaded table is `Option (List Char)`: `none` models a
null/NaN cell, `some s` a string cell.
-/

namespace CleanPy

/-- Strings of the Python program, modelled as lists of characters. -/
abbrev Str := List Char

/-- The whitespace characters recognised by Python's `str.strip`,
`str.split()` and the regex class `\s` (ASCII range). -/
def isPySpace (c : Char) : Bool :=
  c == ' ' || c == '\t' || c == '\n' || c == '\r' || c == '\x0b' || c == '\x0c'

/-- Python `str.lower` (ASCII). -/
def lowerStr (s : Str) : Str := s.map Char.toLower

/-- Drop trailing characters satisfying `p` (helper for `str.strip`). -/
def trimRight (p : Char → Bool) (s : Str) : Str :=
  ((s.reverse).dropWhile p).reverse

/-- Python `str.strip()`: remove leading and trailing whitespace. -/
def pyStrip (s : Str) : Str :=
  trimRight isPySpace (s.dropWhile isPySpace)

/-- Characters allowed by the regex class `[a-zA-Z0-9._%+-]`
(the local part of `email_pattern`, clean.py line 89). -/
def isLocalChar (c : Char) : Bool :=
  c.isAlpha || c.isDigit || c == '.' || c == '_' || c == '%' || c == '+' || c == '-'

/-- Characters allowed by the regex class `[a-zA-Z0-9.-]`
(the domain part of `email_pattern`, clean.py line 89). -/
def isDomainChar (c : Char) : Bool :=
  c.isAlpha || c.isDigit || c == '.' || c == '-'

/-- The final `[a-zA-Z]{2,}$` part of `email_pattern`: at least two
alphabetic characters. -/
def tldOk (t : Str) : Bool :=
  decide (2 ≤ t.length) && t.all Char.isAlpha

/-- Match of `[a-zA-Z0-9.-]+\.[a-zA-Z]{2,}$` against `r`: some split
`r = d ++ '.' :: t` with `d` nonempty of domain characters and `t` a
valid TLD.  Stated as a search over all split positions, which is the
language of the (regular) expression. -/
def domainMatch (r : Str) : Bool :=
  (List.range r.length).any (fun i =>
    decide (r.take i ≠ []) && (r.take i).all isDomainChar &&
      (match r.drop i with
       | '.' :: t => tldOk t
       | _ => false))

/-- The language of `email_pattern` (clean.py line 89):
`^[a-zA-Z0-9._%+-]+@[a-zA-Z0-9.-]+\.[a-zA-Z]{2,}$`.
`re.match` with this pattern succeeds on a string without a trailing
newline exactly when the whole string is in this language; the pipeline
only applies it to stripped strings. -/
def emailMatch (s : Str) : Bool :=
  (List.range s.length).any (fun i =>
    decide (s.take i ≠ []) && (s.take i).all isLocalChar &&
      (match s.drop i with
       | '@' :: r => domainMatch r
       | _ => false))

/-- `pat` occurs as a contiguous substring of `s` (Python's `in`). -/
def hasSub (pat s : Str) : Bool :=
  (List.range (s.length + 1)).any (fun i => (s.drop i).take pat.length == pat)

/-- The disallowed substrings of clean.py line 95. -/
def badTerms : List Str :=
  [ "whatsapp".toList, "messenger".toList, "facebook".toList,
    "test".toList, "example".toList]

/-- A cell of the table: `none` is a null/NaN value. -/
abbrev Cell := Option Str

/-- Python `str(x)` on a cell: `str(nan) = 'nan'` (this is also what
pandas' `.astype(str)` writes into a NaN slot). -/
def cellStr (c : Cell) : Str :=
  match c with
  | none => "nan".toList
  | some s => s

/-- Auxiliary bound used by the termination arguments below. -/
theorem length_dropWhile_le {α : Type} (p : α → Bool) (l : List α) :
    (l.dropWhile p).length ≤ l.length := by
  induction l with
  | nil => simp
  | cons c cs ih =>
    rw [List.dropWhile_cons]
    split
    · exact Nat.le_succ_of_le ih
    · simp

/-- Python `str.split()` with no argument: the maximal whitespace-free
chunks of `s`, in order, empty chunks discarded. -/
def words (s : Str) : List Str :=
  match s with
  | [] => []
  | c :: cs =>
    if isPySpace c then words cs
    else (c :: cs.takeWhile (fun d => !isPySpace d)) ::
      words (cs.dropWhile (fun d => !isPySpace d))
termination_by s.length
decreasing_by
  · simp only [List.length_cons]; omega
  · have := length_dropWhile_le (fun d => !isPySpace d) cs
    simp only [List.length_cons]; omega

/-- `' '.join(s.split())`: collapse whitespace runs to single spaces and
trim the ends (clean.py lines 107 and 115). -/
def wsJoin (s : Str) : Str :=
  List.intercalate " ".toList (words s)

/-- `re.sub(r'\s+', ' ', s)` (clean.py line 108): each maximal
whitespace run becomes a single space. -/
def subWsRuns (s : Str) : Str :=
  match s with
  | [] => []
  | c :: cs =>
    if isPySpace c then ' ' :: subWsRuns (cs.dropWhile isPySpace)
    else c :: subWsRuns cs
termination_by s.length
decreasing_by
  · have := length_dropWhile_le isPySpace cs
    simp only [List.length_cons]; omega
  · simp only [List.length_cons]; omega

/-- `re.sub(r'\s*,\s*', ', ', s)` (clean.py line 116).  The scanner
tries the pattern at each position: whenever the text from the current
position reads as optional whitespace followed by a comma, that
whitespace, the comma and any whitespace after it are replaced by
`", "`; otherwise one character is copied and scanning moves on. -/
def subCommaWs (s : Str) : Str :=
  match s with
  | [] => []
  | c :: cs =>
    match h : (c :: cs).dropWhile isPySpace with
    | ',' :: r2 => ',' :: ' ' :: subCommaWs (r2.dropWhile isPySpace)
    | _ => c :: subCommaWs cs
termination_by s.length
decreasing_by
  · have h1 := length_dropWhile_le isPySpace r2
    have h2 := length_dropWhile_le isPySpace (c :: cs)
    rw [h] at h2
    simp only [List.length_cons] at h2 ⊢
    omega
  · simp only [List.length_cons]; omega

/-- `re.sub(r',+', ',', s)` (clean.py line 117): each maximal run of
commas becomes a single comma. -/
def subCommas (s : Str) : Str :=
  match s with
  | [] => []
  | ',' :: ',' :: rest => subCommas (',' :: rest)
  | c :: rest => c :: subCommas rest

/-- Python `str.capitalize()` (ASCII): first character upper-cased,
the rest lower-cased. -/
def capWord (w : Str) : Str :=
  match w with
  | [] => []
  | c :: cs => Char.toUpper c :: cs.map Char.toLower

/-- `clean_name` (clean.py lines 103-109): missing values become `''`;
otherwise whitespace is collapsed/trimmed and every
whitespace-separated token is capitalized, joined by single spaces. -/
def clean_name (cell : Cell) : Str :=
  match cell with
  | none => []
  | some s =>
    if s = "nan".toList ∨ s = [] then []
    else
      let c1 := wsJoin s
      let c2 := pyStrip (subWsRuns c1)
      List.intercalate " ".toList ((words c2).map capWord)

/-- `clean_address` (clean.py lines 112-118): missing values become
`''`; otherwise whitespace is collapsed/trimmed, then
`re.sub(r'\s*,\s*', ', ')`, then `re.sub(r',+', ',')`. -/
def clean_address (cell : Cell) : Str :=
  match cell with
  | none => []
  | some s =>
    if s = "nan".toList ∨ s = [] then []
    else subCommas (subCommaWs (wsJoin s))

/-- `is_valid_email` (clean.py lines 91-100), without the debug print:
reject null/`'nan'`/empty, lower-case and strip, reject when a
disallowed term occurs, otherwise test the regex. -/
def is_valid_email (cell : Cell) : Bool :=
  match cell with
  | none => false
  | some s =>
    if s = "nan".toList ∨ s = [] then false
    else
      let e := pyStrip (lowerStr s)
      if badTerms.any (fun t => hasSub t e) then false
      else emailMatch e

/-- A record of the four-column table produced by line 74
(`df[required_columns]`), with possibly-missing cells. -/
structure Row where
  name : Cell
  email : Cell
  phone : Cell
  address : Cell
deriving DecidableEq, Repr

/-- A record after line 86: every cell coerced to a string. -/
@[ext]
structure CRow where
  name : Str
  email : Str
  phone : Str
  address : Str
deriving DecidableEq, Repr

/-- pandas gives a loaded column dtype `object` exactly when it holds
at least one string cell; a column of only NaN reads as float64, so
line 85's `dtype == 'object'` guard skips it. -/
def colObject (cells : List Cell) : Bool :=
  cells.any (fun c => c.isSome)

/-- One cell of lines 84-86 under line 85's guard:
`astype(str).str.strip()` when the column has dtype object (`str(nan)`
is `'nan'`); a skipped column's cell stays NaN. -/
def stripCell (o : Bool) (c : Cell) : Cell :=
  if o then some (pyStrip (cellStr c)) else c

/-- Lines 84-86 with every column of dtype `object` (each holding at
least one string cell): `astype(str).str.strip()` on each cell
(`str(nan)` is `'nan'`).  Line 85's dtype guard is modelled per column
by `colObject` and `stripCell` above: a column with no string cell is
all-NaN (float64) and is skipped, which observably differs from this
unguarded form only in the phone field — the one column no later
`apply`, filter or note reads; an all-NaN name or address column
cleans to the same empty string either way, and an all-NaN email
column loses every row at the email filter either way. -/
def stripRow (r : Row) : CRow :=
  ⟨ pyStrip (cellStr r.name), pyStrip (cellStr r.email),
    pyStrip (cellStr r.phone), pyStrip (cellStr r.address)⟩

/-- Lines 121-123: lower-case the email unless it is the literal
`'nan'`, clean the name, clean the address.  The phone column is not
touched. -/
def applyCleaners (r : CRow) : CRow :=
  { r with
    email := if r.email = "nan".toList then r.email else lowerStr r.email
    name := clean_name (some r.name)
    address := clean_address (some r.address) }

/-- The per-row preparation of the pipeline: lines 84-86 then 121-123. -/
def cleanRow (r : Row) : CRow := applyCleaners (stripRow r)

/-- The fixed reasons of the removal notes (lines 147, 155, 164). -/
inductive Reason where
  | invalidEmail
  | emptyName
  | emptyAddress
  | duplicateEmail
deriving DecidableEq, Repr

/-- A removal note: the stage's fixed reason text together with the
number of rows that stage removed. -/
structure Note where
  reason : Reason
  count : Nat
deriving DecidableEq, Repr

/-- `df.duplicated(subset=['email'], keep='first')` followed by
`df[~duplicates]` (lines 161/167): keep each row whose email has not
occurred in an earlier kept-or-seen row. -/
def dedupFirst (seen : List Str) (l : List CRow) : List CRow :=
  match l with
  | [] => []
  | r :: rs =>
    if r.email ∈ seen then dedupFirst seen rs
    else r :: dedupFirst (r.email :: seen) rs

/-- The filter/validator chain of lines 126-167 on the four-column
table: clean every row, filter on email validity, on non-empty trimmed
name, on non-empty trimmed address, then drop later duplicate emails;
a note is appended for each stage exactly when its removal count is
non-zero. -/
def pipelineCore (rows : List Row) : List CRow × List Note :=
  let cl := rows.map cleanRow
  let keepE := cl.filter (fun r => is_valid_email (some r.email))
  let dE := cl.length - keepE.length
  let errs1 : List Note := if dE ≠ 0 then [⟨.invalidEmail, dE⟩] else []
  let keepN := keepE.filter (fun r => decide (pyStrip r.name ≠ []))
  let dN := keepE.length - keepN.length
  let errs2 : List Note := if dN ≠ 0 then [⟨.emptyName, dN⟩] else []
  let keepA := keepN.filter (fun r => decide (pyStrip r.address ≠ []))
  let dA := keepN.length - keepA.length
  let errs3 : List Note := if dA ≠ 0 then [⟨.emptyAddress, dA⟩] else []
  let ded := dedupFirst [] keepA
  let dD := keepA.length - ded.length
  if dD ≠ 0 then (ded, errs1 ++ errs2 ++ errs3 ++ [⟨.duplicateEmail, dD⟩])
  else (keepA, errs1 ++ errs2 ++ errs3)

/-- The loaded table, row-major: a header list and the rows' cells.
A row shorter than the header reads as NaN in the missing slots, as
pandas does. -/
structure RawTable where
  headers : List Str
  rows : List (List Cell)
deriving DecidableEq, Repr

/-- The alias map (`column_renames`, clean.py lines 43-57). -/
def column_renames : List (Str × Str) :=
  [ ( "emial".toList, "email".toList),
    ( "e-mail".toList, "email".toList),
    ( "emai;".toList, "email".toList),
    ( "mobile".toList, "phone".toList),
    ( "phone number".toList, "phone".toList),
    ( "cell".toList, "phone".toList),
    ( "full name".toList, "name".toList),
    ( "contact name".toList, "name".toList),
    ( "links".toList, "name".toList),
    ( "link".toList, "name".toList),
    ( "name".toList, "name".toList),
    ( "full address".toList, "address".toList),
    ( "location".toList, "address".toList)]

/-- `df.rename(columns=column_renames)` on one header name. -/
def applyRename (h : Str) : Str :=
  (List.lookup h column_renames).getD h

/-- `required_columns` (clean.py line 61). -/
def requiredColumns : List Str :=
  [ "name".toList, "email".toList, "phone".toList, "address".toList]

/-- The cell of `row` in the column named `nm` (first matching header,
NaN when the column is absent or the row is short). -/
def cellAt (headers : List Str) (row : List Cell) (nm : Str) : Cell :=
  match headers.findIdx? (fun h => h = nm) with
  | some i => (row.get? i).getD none
  | none => none

/-- `df['first_name'] + ' ' + df['last_name']` on one row: string
concatenation, NaN-propagating. -/
def synthName (a b : Cell) : Cell :=
  match a, b with
  | some x, some y => some (x ++ " ".toList ++ y)
  | _, _ => none

/-- The column reconciler (clean.py lines 40-71): lower-case and trim
the header names, apply the alias map, compute the missing required
columns; when `name` is missing but `first_name` and `last_name` are
present, synthesize a `name` column; fail with the list of still
missing required columns if any remain. -/
def reconcile (t : RawTable) : Except (List Str) RawTable :=
  let hs := t.headers.map (fun h => applyRename (pyStrip (lowerStr h)))
  let missing0 := requiredColumns.filter (fun c => decide (c ∉ hs))
  if missing0 = [] then .ok ⟨hs, t.rows⟩
  else
    if "name".toList ∈ missing0 ∧ "first_name".toList ∈ hs ∧ "last_name".toList ∈ hs then
      let hs' := hs ++ [ "name".toList]
      let rows' := t.rows.map (fun row =>
        row ++ [synthName (cellAt hs row ( "first_name".toList))
                  (cellAt hs row ( "last_name".toList))])
      let missing1 := missing0.erase ( "name".toList)
      if missing1 = [] then .ok ⟨hs', rows'⟩ else .error missing1
    else .error missing0

/-- Line 74, `df[required_columns]`: the four-column table, in the
required order. -/
def selectRows (t : RawTable) : List Row :=
  t.rows.map (fun row =>
    ⟨ cellAt t.headers row ( "name".toList),
      cellAt t.headers row ( "email".toList),
      cellAt t.headers row ( "phone".toList),
      cellAt t.headers row ( "address".toList)⟩)

/-- The error conditions a run can end in. -/
inductive PyErr where
  | fileNotFound
  | missingColumns (cols : List Str)
  | permissionDenied
  | unboundLocalTimestamp
  | divisionByZero
deriving DecidableEq, Repr

/-- A successful file write of the run. -/
inductive WriteEvent where
  | wrotePrimary
  | wroteFallback
deriving DecidableEq, Repr

/-- The save step (clean.py lines 176-183 with lines 21-24): the
`timestamp` local is assigned only when no output file was supplied,
so on a `PermissionError` the fallback f-string
`f"email_only_data_{timestamp}.csv"` raises `UnboundLocalError` when
the caller supplied `output_file`; otherwise the fallback path is
tried once and a second failure propagates. -/
def saveStep (explicitOutput writeOk fallbackOk : Bool) :
    Except PyErr (List WriteEvent) :=
  if writeOk then .ok [.wrotePrimary]
  else if explicitOutput then .error .unboundLocalTimestamp
  else if fallbackOk then .ok [.wroteFallback]
  else .error .permissionDenied

/-- The value a successful run returns, together with the output
file's header (line 177 writes `df_cleaned`, whose columns are those
of line 74). -/
structure Output where
  header : List Str
  rows : List CRow
  notes : List Note
deriving DecidableEq, Repr

deriving instance DecidableEq for Except

/-- What a run of `clean_data` does, as far as the file system and the
caller can see: which output files were written, the diagnostic lines
the debug flag adds, and the returned table or the raised error. -/
structure RunResult where
  events : List WriteEvent
  debugLines : List Str
  result : Except PyErr Output
deriving DecidableEq, Repr

/-- `clean_data` (clean.py lines 6-203).  File I/O is abstracted by
the booleans `inputExists`, `writeOk` and `fallbackOk`;
`explicitOutput` is whether the caller passed `output_file`;
`logErrors`, `debug` and `email_only` are the remaining keyword
arguments.  `email_only` and `logErrors` are accepted and never read
by the filtering logic, exactly as in the source (`email_only` is
never used at all; `log_errors` only gates the error-log side
effect).  The debug prints are modelled by `debugLines` (the line
78-80 sample of up-to-ten emails); the summary division of line 188
raises `ZeroDivisionError` when the input had no rows, after the
output file has already been written. -/
def clean_data (inputExists explicitOutput writeOk fallbackOk : Bool)
    (logErrors debug email_only : Bool) (t : RawTable) : RunResult :=
  if ¬ inputExists then ⟨[], [], .error .fileNotFound⟩
  else
    match reconcile t with
    | .error missing => ⟨[], [], .error (.missingColumns missing)⟩
    | .ok t' =>
      let rows := selectRows t'
      let debugLines := if debug then ((rows.map cleanRow).take 10).map CRow.email else []
      let res := pipelineCore rows
      match saveStep explicitOutput writeOk fallbackOk with
      | .error e => ⟨[], debugLines, .error e⟩
      | .ok evs =>
        if t.rows.length = 0 then ⟨evs, debugLines, .error .divisionByZero⟩
        else ⟨evs, debugLines, .ok ⟨requiredColumns, res.1, res.2⟩⟩

/-! ## Character-level facts -/

theorem isPySpace_iff (c : Char) : isPySpace c = true ↔
    (c.toNat = 32 ∨ c.toNat = 9 ∨ c.toNat = 10 ∨ c.toNat = 13 ∨
      c.toNat = 11 ∨ c.toNat = 12) := by
  constructor
  · simp only [isPySpace, Bool.or_eq_true, beq_iff_eq]
    rintro (((((rfl | rfl) | rfl) | rfl) | rfl) | rfl) <;> simp [Char.toNat]
  · intro h
    have hc : c = Char.ofNat c.toNat := (Char.ofNat_toNat c).symm
    rcases h with h | h | h | h | h | h <;>
      · rw [h] at hc
        rw [hc]
        decide

theorem toLower_eq_self (c : Char) (h : ¬ (c.toNat ≥ 65 ∧ c.toNat ≤ 90)) :
    Char.toLower c = c := by
  unfold Char.toLower
  rw [if_neg h]

theorem toLower_toNat (c : Char) (h : c.toNat ≥ 65 ∧ c.toNat ≤ 90) :
    (Char.toLower c).toNat = c.toNat + 32 := by
  unfold Char.toLower
  rw [if_pos h]
  have hv : (c.toNat + 32).isValidChar := by
    unfold Nat.isValidChar
    left
    omega
  simp [Char.ofNat, hv]
  rfl

theorem toLower_toLower (c : Char) :
    Char.toLower (Char.toLower c) = Char.toLower c := by
  by_cases h : c.toNat ≥ 65 ∧ c.toNat ≤ 90
  · have ht := toLower_toNat c h
    apply toLower_eq_self
    omega
  · rw [toLower_eq_self c h]
    exact toLower_eq_self c h

theorem isPySpace_toLower (c : Char) :
    isPySpace (Char.toLower c) = isPySpace c := by
  by_cases h : c.toNat ≥ 65 ∧ c.toNat ≤ 90
  · have ht := toLower_toNat c h
    have h1 : isPySpace (Char.toLower c) = false := by
      rw [← Bool.not_eq_true, isPySpace_iff]
      omega
    have h2 : isPySpace c = false := by
      rw [← Bool.not_eq_true, isPySpace_iff]
      omega
    rw [h1, h2]
  · rw [toLower_eq_self c h]

theorem toUpper_eq_self (c : Char) (h : ¬ (c.toNat ≥ 97 ∧ c.toNat ≤ 122)) :
    Char.toUpper c = c := by
  unfold Char.toUpper
  rw [if_neg h]

theorem toUpper_toNat (c : Char) (h : c.toNat ≥ 97 ∧ c.toNat ≤ 122) :
    (Char.toUpper c).toNat = c.toNat - 32 := by
  unfold Char.toUpper
  rw [if_pos h]
  have hv : (c.toNat - 32).isValidChar := by
    unfold Nat.isValidChar
    left
    omega
  simp [Char.ofNat, hv]
  rfl

theorem toUpper_toUpper (c : Char) :
    Char.toUpper (Char.toUpper c) = Char.toUpper c := by
  by_cases h : c.toNat ≥ 97 ∧ c.toNat ≤ 122
  · have ht := toUpper_toNat c h
    apply toUpper_eq_self
    omega
  · rw [toUpper_eq_self c h]
    exact toUpper_eq_self c h

theorem isPySpace_toUpper (c : Char) :
    isPySpace (Char.toUpper c) = isPySpace c := by
  by_cases h : c.toNat ≥ 97 ∧ c.toNat ≤ 122
  · have ht := toUpper_toNat c h
    have h1 : isPySpace (Char.toUpper c) = false := by
      rw [← Bool.not_eq_true, isPySpace_iff]
      omega
    have h2 : isPySpace c = false := by
      rw [← Bool.not_eq_true, isPySpace_iff]
      omega
    rw [h1, h2]
  · rw [toUpper_eq_self c h]

theorem toUpper_ne_n (c : Char) : Char.toUpper c ≠ 'n' := by
  intro h
  have h110 : ('n').toNat = 110 := rfl
  by_cases hc : c.toNat ≥ 97 ∧ c.toNat ≤ 122
  · have ht := toUpper_toNat c hc
    rw [h] at ht
    omega
  · rw [toUpper_eq_self c hc] at h
    subst h
    omega

/-! ## Stripping and lower-casing algebra -/

theorem length_trimRight_le (p : Char → Bool) (s : Str) :
    (trimRight p s).length ≤ s.length := by
  rw [trimRight, List.length_reverse]
  calc (s.reverse.dropWhile p).length ≤ s.reverse.length :=
        length_dropWhile_le p s.reverse
    _ = s.length := List.length_reverse s

theorem trimRight_eq_nil_of_all {p : Char → Bool} {s : Str}
    (h : ∀ c ∈ s, p c = true) : trimRight p s = [] := by
  rw [trimRight, List.reverse_eq_nil_iff, List.dropWhile_eq_nil_iff]
  intro c hc
  exact h c (List.mem_reverse.mp hc)

theorem trimRight_append_allp {p : Char → Bool} {t : Str} (a : Str)
    (h : ∀ c ∈ t, p c = true) : trimRight p (a ++ t) = trimRight p a := by
  rw [trimRight, trimRight, List.reverse_append, List.dropWhile_append]
  have hnil : t.reverse.dropWhile p = [] := by
    rw [List.dropWhile_eq_nil_iff]
    intro c hc
    exact h c (List.mem_reverse.mp hc)
  rw [hnil]
  simp

theorem trimRight_append_last {p : Char → Bool} {c : Char} (a : Str)
    (h : ¬ p c = true) : trimRight p (a ++ [c]) = a ++ [c] := by
  rw [trimRight, List.reverse_append]
  simp only [List.reverse_cons, List.reverse_nil, List.nil_append,
    List.singleton_append]
  rw [List.dropWhile_cons_of_neg h]
  simp

theorem trimRight_cons {p : Char → Bool} {c : Char} {s : Str}
    (h : ¬ (p c = true ∧ trimRight p s = [])) :
    trimRight p (c :: s) = c :: trimRight p s := by
  have hrc : (c :: s).reverse = s.reverse ++ [c] := by simp
  rw [trimRight, hrc, List.dropWhile_append]
  by_cases he : (s.reverse.dropWhile p).isEmpty = true
  · rw [if_pos he]
    have hnil : trimRight p s = [] := by
      rw [trimRight, List.isEmpty_iff.mp he]
      rfl
    have hpc : ¬ p c = true := fun hp => h ⟨hp, hnil⟩
    rw [List.dropWhile_cons_of_neg hpc, hnil]
    rfl
  · rw [if_neg he]
    rw [List.reverse_append]
    simp [trimRight]

theorem dropWhile_idem (p : Char → Bool) (s : Str) :
    (s.dropWhile p).dropWhile p = s.dropWhile p := by
  induction s with
  | nil => rfl
  | cons c cs ih =>
    by_cases h : p c = true
    · rw [List.dropWhile_cons_of_pos h]
      exact ih
    · rw [List.dropWhile_cons_of_neg h, List.dropWhile_cons_of_neg h]

theorem trimRight_idem (p : Char → Bool) (s : Str) :
    trimRight p (trimRight p s) = trimRight p s := by
  rw [trimRight, trimRight, List.reverse_reverse, dropWhile_idem]

theorem trimRight_decomp (p : Char → Bool) (s : Str) :
    ∃ t, s = trimRight p s ++ t ∧ ∀ c ∈ t, p c = true := by
  refine ⟨(s.reverse.takeWhile p).reverse, ?_, ?_⟩
  · rw [trimRight]
    rw [← List.reverse_append, List.takeWhile_append_dropWhile,
      List.reverse_reverse]
  · intro c hc
    exact List.mem_takeWhile_imp (List.mem_reverse.mp hc)

theorem dropWhile_trimRight_dropWhile (p : Char → Bool) (s : Str) :
    (trimRight p (s.dropWhile p)).dropWhile p = trimRight p (s.dropWhile p) := by
  set u := s.dropWhile p with hu
  cases htr : trimRight p u with
  | nil => rfl
  | cons c rest =>
    obtain ⟨t, hdec, _⟩ := trimRight_decomp p u
    rw [htr] at hdec
    have hch : u.head? = some c := by
      rw [hdec]
      rfl
    have hpc : p c = false := by
      have := List.head?_dropWhile_not p s
      rw [← hu] at this
      rw [hch] at this
      exact this
    rw [List.dropWhile_cons_of_neg (by simp [hpc])]

theorem pyStrip_idem (s : Str) : pyStrip (pyStrip s) = pyStrip s := by
  rw [pyStrip, pyStrip, dropWhile_trimRight_dropWhile, trimRight_idem]

theorem trimRight_of_stripped {s : Str} (h : pyStrip s = s) :
    trimRight isPySpace s = s := by
  conv_lhs => rw [← h]
  rw [pyStrip, trimRight_idem, ← pyStrip, h]

theorem dropWhile_of_stripped {s : Str} (h : pyStrip s = s) :
    s.dropWhile isPySpace = s := by
  conv_lhs => rw [← h]
  rw [pyStrip, dropWhile_trimRight_dropWhile, ← pyStrip, h]

theorem pyStrip_cons_ws {c : Char} (s : Str) (h : isPySpace c = true) :
    pyStrip (c :: s) = pyStrip s := by
  rw [pyStrip, List.dropWhile_cons_of_pos h, pyStrip]

theorem lowerStr_lowerStr (s : Str) : lowerStr (lowerStr s) = lowerStr s := by
  rw [lowerStr, lowerStr, List.map_map]
  exact List.map_congr_left (fun c _ => toLower_toLower c)

theorem dropWhile_lowerStr (s : Str) :
    (lowerStr s).dropWhile isPySpace = lowerStr (s.dropWhile isPySpace) := by
  rw [lowerStr, List.dropWhile_map]
  have hp : (isPySpace ∘ Char.toLower) = isPySpace := funext isPySpace_toLower
  rw [hp, lowerStr]

theorem trimRight_lowerStr (s : Str) :
    trimRight isPySpace (lowerStr s) = lowerStr (trimRight isPySpace s) := by
  rw [trimRight, trimRight, lowerStr, lowerStr]
  rw [← List.map_reverse, List.dropWhile_map]
  have hp : (isPySpace ∘ Char.toLower) = isPySpace := funext isPySpace_toLower
  rw [hp, List.map_reverse]

theorem pyStrip_lowerStr (s : Str) :
    pyStrip (lowerStr s) = lowerStr (pyStrip s) := by
  rw [pyStrip, pyStrip, dropWhile_lowerStr, trimRight_lowerStr]

/-! ## `words` and `intercalate` lemmas -/

theorem words_nil : words [] = [] := by rw [words]

theorem words_cons_ws {c : Char} (cs : Str) (h : isPySpace c = true) :
    words (c :: cs) = words cs := by
  rw [words, if_pos h]

theorem words_cons_not {c : Char} (cs : Str) (h : ¬ isPySpace c = true) :
    words (c :: cs) = (c :: cs.takeWhile (fun d => !isPySpace d)) ::
      words (cs.dropWhile (fun d => !isPySpace d)) := by
  rw [words, if_neg h]

theorem words_mem (s : Str) :
    ∀ w ∈ words s, w ≠ [] ∧ ∀ c ∈ w, isPySpace c = false := by
  induction s using words.induct with
  | case1 => rw [words_nil]; intro w hw; cases hw
  | case2 c cs h ih =>
    rw [words_cons_ws cs h]
    exact ih
  | case3 c cs h ih =>
    rw [words_cons_not cs h]
    intro w hw
    rcases List.mem_cons.mp hw with rfl | hw2
    · refine ⟨by simp, ?_⟩
      intro d hd
      rcases List.mem_cons.mp hd with rfl | hd2
      · simpa using h
      · simpa using List.mem_takeWhile_imp hd2
    · exact ih w hw2

theorem takeWhile_nonws_append {t : Str} (cs : Str)
    (ht : ∀ c ∈ t, isPySpace c = true) :
    (cs ++ t).takeWhile (fun d => !isPySpace d) =
      cs.takeWhile (fun d => !isPySpace d) := by
  induction cs with
  | nil =>
    rw [List.nil_append, List.takeWhile_nil]
    cases t with
    | nil => rfl
    | cons d ds =>
      rw [List.takeWhile_cons_of_neg]
      simp [ht d (List.mem_cons_self _ _)]
  | cons d ds ihd =>
    by_cases hd : isPySpace d = true
    · rw [List.cons_append, List.takeWhile_cons_of_neg (by simp [hd]),
        List.takeWhile_cons_of_neg (by simp [hd])]
    · rw [List.cons_append, List.takeWhile_cons_of_pos (by simp [hd]),
        List.takeWhile_cons_of_pos (by simp [hd]), ihd]

theorem dropWhile_nonws_append {t : Str} (cs : Str)
    (ht : ∀ c ∈ t, isPySpace c = true) :
    (cs ++ t).dropWhile (fun d => !isPySpace d) =
        cs.dropWhile (fun d => !isPySpace d) ++ t ∨
      ((cs ++ t).dropWhile (fun d => !isPySpace d) = [] ∧
        cs.dropWhile (fun d => !isPySpace d) = []) := by
  induction cs with
  | nil =>
    left
    rw [List.nil_append, List.dropWhile_nil, List.nil_append]
    cases t with
    | nil => rfl
    | cons d ds =>
      rw [List.dropWhile_cons_of_neg]
      simp [ht d (List.mem_cons_self _ _)]
  | cons d ds ihd =>
    by_cases hd : isPySpace d = true
    · left
      rw [List.cons_append, List.dropWhile_cons_of_neg (by simp [hd]),
        List.dropWhile_cons_of_neg (by simp [hd]), List.cons_append]
    · rcases ihd with h1 | ⟨h1, h2⟩
      · left
        rw [List.cons_append, List.dropWhile_cons_of_pos (by simp [hd]),
          List.dropWhile_cons_of_pos (by simp [hd]), h1]
      · right
        rw [List.cons_append, List.dropWhile_cons_of_pos (by simp [hd]),
          List.dropWhile_cons_of_pos (by simp [hd])]
        exact ⟨h1, h2⟩

theorem words_append_ws {t : Str} (s : Str) (ht : ∀ c ∈ t, isPySpace c = true) :
    words (s ++ t) = words s := by
  induction s using words.induct with
  | case1 =>
    rw [List.nil_append, words_nil]
    induction t with
    | nil => exact words_nil
    | cons c cs ih =>
      rw [words_cons_ws cs (ht c (List.mem_cons_self _ _))]
      exact ih fun d hd => ht d (List.mem_cons_of_mem c hd)
  | case2 c cs h ih =>
    rw [List.cons_append, words_cons_ws _ h, words_cons_ws _ h]
    exact ih
  | case3 c cs h ih =>
    rw [List.cons_append, words_cons_not _ h, words_cons_not _ h]
    rw [takeWhile_nonws_append cs ht]
    rcases dropWhile_nonws_append cs ht with h1 | ⟨h1, h2⟩
    · rw [h1, ih]
    · rw [h1, h2]

theorem words_dropWhile (s : Str) :
    words (s.dropWhile isPySpace) = words s := by
  induction s with
  | nil => rfl
  | cons c cs ih =>
    by_cases h : isPySpace c = true
    · rw [List.dropWhile_cons_of_pos h, words_cons_ws cs h, ih]
    · rw [List.dropWhile_cons_of_neg h]

theorem words_pyStrip (s : Str) : words (pyStrip s) = words s := by
  obtain ⟨t, hdec, ht⟩ := trimRight_decomp isPySpace (s.dropWhile isPySpace)
  rw [pyStrip]
  calc words (trimRight isPySpace (s.dropWhile isPySpace))
      = words (trimRight isPySpace (s.dropWhile isPySpace) ++ t) :=
        (words_append_ws _ ht).symm
    _ = words (s.dropWhile isPySpace) := by rw [← hdec]
    _ = words s := words_dropWhile s

theorem words_single {s : Str} (hne : s ≠ [])
    (hn : ∀ c ∈ s, isPySpace c = false) : words s = [s] := by
  cases s with
  | nil => exact absurd rfl hne
  | cons c cs =>
    rw [words_cons_not cs (by simp [hn c (List.mem_cons_self _ _)])]
    have htk : cs.takeWhile (fun d => !isPySpace d) = cs :=
      List.takeWhile_eq_self_iff.mpr
        (fun d hd => by simp [hn d (List.mem_cons_of_mem c hd)])
    have hdr : cs.dropWhile (fun d => !isPySpace d) = [] :=
      List.dropWhile_eq_nil_iff.mpr
        (fun d hd => by simp [hn d (List.mem_cons_of_mem c hd)])
    rw [htk, hdr, words_nil]

theorem words_word_append {w : Str} (r : Str) (hne : w ≠ [])
    (hn : ∀ c ∈ w, isPySpace c = false) :
    words (w ++ ' ' :: r) = w :: words r := by
  cases w with
  | nil => exact absurd rfl hne
  | cons c cs =>
    rw [List.cons_append,
      words_cons_not _ (by simp [hn c (List.mem_cons_self _ _)])]
    have htk : (cs ++ ' ' :: r).takeWhile (fun d => !isPySpace d) = cs := by
      rw [List.takeWhile_append_of_pos
        (fun d hd => by simp [hn d (List.mem_cons_of_mem c hd)])]
      rw [List.takeWhile_cons_of_neg (by simp [isPySpace])]
      simp
    have hdr : (cs ++ ' ' :: r).dropWhile (fun d => !isPySpace d) = ' ' :: r := by
      rw [List.dropWhile_append_of_pos
        (fun d hd => by simp [hn d (List.mem_cons_of_mem c hd)])]
      rw [List.dropWhile_cons_of_neg (by simp [isPySpace])]
    rw [htk, hdr, words_cons_ws r (by simp [isPySpace])]

theorem ic_nil (sep : Str) : List.intercalate sep ([] : List Str) = [] := rfl

theorem ic_single (sep : Str) (a : Str) : List.intercalate sep [a] = a := by
  simp [List.intercalate]

theorem ic_cons (sep a : Str) {l : List Str} (h : l ≠ []) :
    List.intercalate sep (a :: l) = a ++ sep ++ List.intercalate sep l := by
  cases l with
  | nil => exact absurd rfl h
  | cons b bs =>
    simp [List.intercalate, List.intersperse]

theorem words_intercalate (L : List Str)
    (hL : ∀ w ∈ L, w ≠ [] ∧ ∀ c ∈ w, isPySpace c = false) :
    words (List.intercalate ( " ".toList) L) = L := by
  induction L with
  | nil => rw [ic_nil, words_nil]
  | cons w rest ih =>
    cases rest with
    | nil =>
      rw [ic_single]
      exact words_single (hL w (List.mem_cons_self _ _)).1 (hL w (List.mem_cons_self _ _)).2
    | cons w2 rest2 =>
      rw [ic_cons _ _ (by simp), List.append_assoc]
      have hj : ( " ".toList) ++ List.intercalate ( " ".toList) (w2 :: rest2) =
          ' ' :: List.intercalate ( " ".toList) (w2 :: rest2) := rfl
      rw [hj, words_word_append _ (hL w (List.mem_cons_self _ _)).1
        (hL w (List.mem_cons_self _ _)).2]
      rw [ih (fun v hv => hL v (List.mem_cons_of_mem w hv))]

theorem words_wsJoin (s : Str) : words (wsJoin s) = words s := by
  rw [wsJoin, words_intercalate (words s) (words_mem s)]

theorem words_eq_nil_iff (s : Str) :
    words s = [] ↔ ∀ c ∈ s, isPySpace c = true := by
  induction s using words.induct with
  | case1 => simp [words_nil]
  | case2 c cs h ih =>
    rw [words_cons_ws cs h]
    constructor
    · intro hw d hd
      rcases List.mem_cons.mp hd with rfl | hd2
      · exact h
      · exact ih.mp hw d hd2
    · intro hall
      exact ih.mpr fun d hd => hall d (List.mem_cons_of_mem c hd)
  | case3 c cs h ih =>
    rw [words_cons_not cs h]
    constructor
    · intro hw
      cases hw
    · intro hall
      exact absurd (hall c (List.mem_cons_self _ _)) h

/-! ## Normal forms: no leading/trailing whitespace -/

theorem trimRight_append_ne {p : Char → Bool} {b : Str} (a : Str) (hb : b ≠ [])
    (h : trimRight p b = b) : trimRight p (a ++ b) = a ++ b := by
  rcases List.eq_nil_or_concat b with rfl | ⟨L, c, rfl⟩
  · exact absurd rfl hb
  · rw [List.concat_eq_append] at h ⊢
    have hpc : p c = false := by
      by_contra hc
      rw [Bool.not_eq_false] at hc
      have h2 : trimRight p (L ++ [c]) = trimRight p L :=
        trimRight_append_allp L (by intro d hd; rw [List.mem_singleton.mp hd]; exact hc)
      rw [h2] at h
      have := length_trimRight_le p L
      rw [h] at this
      simp at this
    rw [← List.append_assoc]
    exact trimRight_append_last (a ++ L) (by simp [hpc])

theorem ic_ne_nil {L : List Str} (hne : L ≠ []) (hw : ∀ w ∈ L, w ≠ []) :
    List.intercalate ( " ".toList) L ≠ [] := by
  cases L with
  | nil => exact absurd rfl hne
  | cons w rest =>
    cases rest with
    | nil =>
      rw [ic_single]
      exact hw w (List.mem_cons_self _ _)
    | cons w2 rest2 =>
      rw [ic_cons _ _ (by simp)]
      have := hw w (List.mem_cons_self _ _)
      intro hcon
      rcases List.append_eq_nil.mp hcon with ⟨h1, _⟩
      rcases List.append_eq_nil.mp h1 with ⟨h2, _⟩
      exact this h2

theorem trimRight_intercalate {L : List Str}
    (hL : ∀ w ∈ L, w ≠ [] ∧ ∀ c ∈ w, isPySpace c = false) :
    trimRight isPySpace (List.intercalate ( " ".toList) L) =
      List.intercalate ( " ".toList) L := by
  induction L with
  | nil => rfl
  | cons w rest ih =>
    cases rest with
    | nil =>
      rw [ic_single]
      obtain ⟨hne, hnw⟩ := hL w (List.mem_cons_self _ _)
      rcases List.eq_nil_or_concat w with rfl | ⟨L', c, rfl⟩
      · exact absurd rfl hne
      · rw [List.concat_eq_append]
        exact trimRight_append_last L'
          (by simp [hnw c (by simp [List.concat_eq_append])])
    | cons w2 rest2 =>
      rw [ic_cons _ _ (by simp)]
      exact trimRight_append_ne _
        (ic_ne_nil (by simp) (fun v hv => (hL v (List.mem_cons_of_mem w hv)).1))
        (ih (fun v hv => hL v (List.mem_cons_of_mem w hv)))

theorem dropWhile_intercalate {L : List Str}
    (hL : ∀ w ∈ L, w ≠ [] ∧ ∀ c ∈ w, isPySpace c = false) :
    (List.intercalate ( " ".toList) L).dropWhile isPySpace =
      List.intercalate ( " ".toList) L := by
  cases L with
  | nil => rfl
  | cons w rest =>
    obtain ⟨hne, hnw⟩ := hL w (List.mem_cons_self _ _)
    cases w with
    | nil => exact absurd rfl hne
    | cons c w' =>
      have hc : isPySpace c = false := hnw c (List.mem_cons_self _ _)
      cases rest with
      | nil =>
        rw [ic_single, List.dropWhile_cons_of_neg (by simp [hc])]
      | cons w2 rest2 =>
        rw [ic_cons _ _ (by simp), List.cons_append, List.cons_append,
          List.dropWhile_cons_of_neg (by simp [hc])]

theorem pyStrip_wsJoin (s : Str) : pyStrip (wsJoin s) = wsJoin s := by
  rw [pyStrip, wsJoin, dropWhile_intercalate (words_mem s),
    trimRight_intercalate (words_mem s)]

theorem head_not_ws_of_stripped {c : Char} {cs : Str}
    (h : pyStrip (c :: cs) = c :: cs) : isPySpace c = false := by
  by_contra hc
  rw [Bool.not_eq_false] at hc
  have hd := dropWhile_of_stripped h
  rw [List.dropWhile_cons_of_pos hc] at hd
  have := length_dropWhile_le isPySpace cs
  rw [hd] at this
  simp at this

theorem last_not_ws_of_stripped {s L : Str} {c : Char}
    (h : pyStrip s = s) (hdec : s = L ++ [c]) : isPySpace c = false := by
  by_contra hc
  rw [Bool.not_eq_false] at hc
  have ht := trimRight_of_stripped h
  rw [hdec] at ht
  have h2 : trimRight isPySpace (L ++ [c]) = trimRight isPySpace L :=
    trimRight_append_allp L (by intro d hd; rw [List.mem_singleton.mp hd]; exact hc)
  rw [h2] at ht
  have := length_trimRight_le isPySpace L
  rw [ht] at this
  simp at this

theorem stripped_single_word {s u : Str} (h : pyStrip s = s)
    (hw : words s = [u]) : s = u := by
  cases s with
  | nil => rw [words_nil] at hw; cases hw
  | cons c cs =>
    have hc := head_not_ws_of_stripped h
    rw [words_cons_not cs (by simp [hc])] at hw
    have hu : u = c :: cs.takeWhile (fun d => !isPySpace d) :=
      (List.cons_eq_cons.mp hw).1.symm
    have hrest : words (cs.dropWhile (fun d => !isPySpace d)) = [] :=
      (List.cons_eq_cons.mp hw).2
    have hall : ∀ d ∈ cs.dropWhile (fun d => !isPySpace d), isPySpace d = true :=
      (words_eq_nil_iff _).mp hrest
    rcases List.eq_nil_or_concat (cs.dropWhile (fun d => !isPySpace d)) with hnil | ⟨L, d, hLd⟩
    · have : cs.takeWhile (fun d => !isPySpace d) = cs := by
        conv_rhs => rw [← List.takeWhile_append_dropWhile (fun d => !isPySpace d) cs]
        rw [hnil, List.append_nil]
      rw [hu, this]
    · exfalso
      rw [List.concat_eq_append] at hLd
      have hdws : isPySpace d = true := hall d (by rw [hLd]; simp)
      have hdecomp : c :: cs = (c :: cs.takeWhile (fun d => !isPySpace d) ++ L) ++ [d] := by
        conv_lhs => rw [show cs = cs.takeWhile (fun d => !isPySpace d) ++
          cs.dropWhile (fun d => !isPySpace d) from
            (List.takeWhile_append_dropWhile _ cs).symm]
        rw [hLd]
        simp
      have := last_not_ws_of_stripped h hdecomp
      rw [hdws] at this
      cases this

/-! ## Rewrite rules for `subCommaWs` -/

theorem subCommaWs_nil : subCommaWs [] = [] := subCommaWs.eq_1

theorem subCommaWs_comma {c : Char} {cs r2 : Str}
    (h : (c :: cs).dropWhile isPySpace = ',' :: r2) :
    subCommaWs (c :: cs) = ',' :: ' ' :: subCommaWs (r2.dropWhile isPySpace) := by
  rw [subCommaWs.eq_2]
  split
  · rename_i r2' heq
    rw [h] at heq
    cases heq
    rfl
  · rename_i hne
    exact absurd h (hne r2)

theorem subCommaWs_not_comma {c : Char} {cs : Str}
    (h : ∀ r2, (c :: cs).dropWhile isPySpace = ',' :: r2 → False) :
    subCommaWs (c :: cs) = c :: subCommaWs cs := by
  rw [subCommaWs.eq_2]
  split
  · rename_i r2' heq
    exact (h r2' heq).elim
  · rfl

/-! ## A closed form for `subCommaWs`

`subCommaWs` rewrites the text between commas: split the string at
every comma, trim whitespace at the comma-adjacent ends of the pieces
(the outer two ends of the string are left alone), and re-join the
pieces with `", "`. -/

/-- Split at every comma (a proof-side device; one more piece than
commas, pieces may be empty). -/
def splitOnComma (s : Str) : List Str :=
  match s with
  | [] => [[]]
  | c :: cs =>
    if c = ',' then [] :: splitOnComma cs
    else
      match splitOnComma cs with
      | p :: ps => (c :: p) :: ps
      | [] => [[c]]

theorem splitOnComma_nil : splitOnComma [] = [[]] := rfl

theorem splitOnComma_comma (cs : Str) :
    splitOnComma (',' :: cs) = [] :: splitOnComma cs := by
  simp [splitOnComma]

theorem splitOnComma_cons {c : Char} {cs p : Str} {ps : List Str}
    (hc : ¬ c = ',') (hcs : splitOnComma cs = p :: ps) :
    splitOnComma (c :: cs) = (c :: p) :: ps := by
  simp only [splitOnComma, if_neg hc, hcs]

theorem splitOnComma_ne_nil (s : Str) : splitOnComma s ≠ [] := by
  induction s with
  | nil => simp [splitOnComma]
  | cons c cs ih =>
    by_cases hc : c = ','
    · subst hc
      rw [splitOnComma_comma]
      simp
    · cases hcs : splitOnComma cs with
      | nil => exact absurd hcs ih
      | cons p ps =>
        rw [splitOnComma_cons hc hcs]
        simp

theorem splitOnComma_cons_form (s : Str) :
    ∃ p ps, splitOnComma s = p :: ps := by
  cases h : splitOnComma s with
  | nil => exact absurd h (splitOnComma_ne_nil s)
  | cons p ps => exact ⟨p, ps, rfl⟩

theorem splitOnComma_spec (s : Str) : ∀ {p : Str} {ps : List Str},
    splitOnComma s = p :: ps →
    (',' ∉ p) ∧ ((ps = [] ∧ s = p) ∨
      ∃ r, s = p ++ ',' :: r ∧ splitOnComma r = ps) := by
  induction s with
  | nil =>
    intro p ps h
    rw [splitOnComma_nil] at h
    injection h with h1 h2
    subst h1
    subst h2
    exact ⟨by simp, Or.inl ⟨rfl, rfl⟩⟩
  | cons c cs ih =>
    intro p ps h
    by_cases hc : c = ','
    · subst hc
      rw [splitOnComma_comma] at h
      injection h with h1 h2
      subst h1
      refine ⟨by simp, Or.inr ⟨cs, by simp, h2⟩⟩
    · obtain ⟨q, qs, hq⟩ := splitOnComma_cons_form cs
      rw [splitOnComma_cons hc hq] at h
      injection h with h1 h2
      subst h1
      subst h2
      obtain ⟨hqc, hrest⟩ := ih hq
      constructor
      · intro hmem
        rcases List.mem_cons.mp hmem with h3 | h3
        · exact hc h3.symm
        · exact hqc h3
      · rcases hrest with ⟨rfl, rfl⟩ | ⟨r, hr, hsp⟩
        · exact Or.inl ⟨rfl, rfl⟩
        · exact Or.inr ⟨r, by rw [hr]; simp, hsp⟩

theorem splitOnComma_append_comma {t : Str} (ht : ',' ∉ t) (r : Str) :
    splitOnComma (t ++ ',' :: r) = t :: splitOnComma r := by
  induction t with
  | nil =>
    rw [List.nil_append, splitOnComma_comma]
  | cons c cs ih =>
    have hc : ¬ c = ',' := fun h => ht (h ▸ List.mem_cons_self _ _)
    have ihr := ih (fun hm => ht (List.mem_cons_of_mem _ hm))
    rw [List.cons_append, splitOnComma_cons hc ihr]

theorem splitOnComma_no_comma {s : Str} (h : ',' ∉ s) :
    splitOnComma s = [s] := by
  induction s with
  | nil => rfl
  | cons c cs ih =>
    have hc : ¬ c = ',' := fun h2 => h (h2 ▸ List.mem_cons_self _ _)
    rw [splitOnComma_cons hc (ih (fun hm => h (List.mem_cons_of_mem _ hm)))]

theorem splitOnComma_dropWhile (r : Str) : ∀ {q : Str} {qs : List Str},
    splitOnComma r = q :: qs →
    splitOnComma (r.dropWhile isPySpace) =
      (q.dropWhile isPySpace) :: qs := by
  induction r with
  | nil =>
    intro q qs h
    rw [splitOnComma_nil] at h
    injection h with h1 h2
    subst h1
    subst h2
    rfl
  | cons c cs ih =>
    intro q qs h
    by_cases hws : isPySpace c = true
    · have hc : ¬ c = ',' := by
        intro h2
        subst h2
        have : isPySpace ',' = false := by decide
        rw [this] at hws
        cases hws
      obtain ⟨q', qs', hq⟩ := splitOnComma_cons_form cs
      rw [splitOnComma_cons hc hq] at h
      injection h with h1 h2
      subst h1
      subst h2
      rw [List.dropWhile_cons_of_pos hws, List.dropWhile_cons_of_pos hws]
      exact ih hq
    · rw [List.dropWhile_cons_of_neg hws]
      by_cases hc : c = ','
      · subst hc
        rw [splitOnComma_comma] at h
        injection h with h1 h2
        subst h1
        subst h2
        rw [splitOnComma_comma]
        rfl
      · obtain ⟨q', qs', hq⟩ := splitOnComma_cons_form cs
        rw [splitOnComma_cons hc hq] at h
        injection h with h1 h2
        subst h1
        subst h2
        rw [List.dropWhile_cons_of_neg hws]
        exact splitOnComma_cons hc hq

/-- Trim the pieces between the first one: leading whitespace always,
trailing whitespace on all but the last piece. -/
def innerTrim : List Str → List Str
  | [] => []
  | [q] => [q.dropWhile isPySpace]
  | q :: qs => pyStrip q :: innerTrim qs

/-- Trim each piece at its comma-adjacent ends: the first piece on the
right only, middle pieces on both sides, the last piece on the left
only (a single piece is untouched). -/
def adjTrim : List Str → List Str
  | [] => []
  | [p] => [p]
  | p :: ps => trimRight isPySpace p :: innerTrim ps

theorem innerTrim_ne_nil {l : List Str} (h : l ≠ []) : innerTrim l ≠ [] := by
  cases l with
  | nil => exact absurd rfl h
  | cons q qs =>
    cases qs with
    | nil => simp [innerTrim]
    | cons q2 qs2 => simp [innerTrim]

theorem all_of_trimRight_eq_nil {p : Char → Bool} {s : Str}
    (h : trimRight p s = []) : ∀ c ∈ s, p c = true := by
  obtain ⟨t, hdec, ht⟩ := trimRight_decomp p s
  rw [h, List.nil_append] at hdec
  rw [hdec]
  exact ht

/-- The closed form of the comma-spacing pass. -/
theorem subCommaWs_char (s : Str) :
    subCommaWs s = List.intercalate ( ", ".toList) (adjTrim (splitOnComma s)) := by
  induction s using subCommaWs.induct with
  | case1 =>
    rw [subCommaWs_nil]
    rfl
  | case2 c cs r2 h ih =>
    rw [subCommaWs_comma h]
    have hdec : c :: cs = (c :: cs).takeWhile isPySpace ++ ',' :: r2 := by
      conv_lhs => rw [← List.takeWhile_append_dropWhile isPySpace (c :: cs)]
      rw [h]
    have htws : ∀ d ∈ (c :: cs).takeWhile isPySpace, isPySpace d = true :=
      fun d hd => List.mem_takeWhile_imp hd
    have htc : ',' ∉ (c :: cs).takeWhile isPySpace := by
      intro hm
      have := htws _ hm
      have h2 : isPySpace ',' = false := by decide
      rw [h2] at this
      cases this
    have htr : trimRight isPySpace ((c :: cs).takeWhile isPySpace) = [] :=
      trimRight_eq_nil_of_all htws
    conv_rhs => rw [hdec, splitOnComma_append_comma htc r2]
    obtain ⟨q, qs, hq⟩ := splitOnComma_cons_form r2
    rw [hq, ih, splitOnComma_dropWhile r2 hq]
    cases qs with
    | nil =>
      rw [show adjTrim [q.dropWhile isPySpace] = [q.dropWhile isPySpace] from rfl]
      rw [show adjTrim ((c :: cs).takeWhile isPySpace :: [q]) =
        trimRight isPySpace ((c :: cs).takeWhile isPySpace) :: innerTrim [q] from rfl]
      rw [htr, show innerTrim [q] = [q.dropWhile isPySpace] from rfl]
      rw [ic_single, ic_cons ( ", ".toList) ([] : Str) (by simp), ic_single]
      rfl
    | cons q2 qs2 =>
      rw [show adjTrim (q.dropWhile isPySpace :: q2 :: qs2) =
        trimRight isPySpace (q.dropWhile isPySpace) :: innerTrim (q2 :: qs2) from rfl]
      rw [show adjTrim ((c :: cs).takeWhile isPySpace :: q :: q2 :: qs2) =
        trimRight isPySpace ((c :: cs).takeWhile isPySpace) ::
          innerTrim (q :: q2 :: qs2) from rfl]
      rw [htr]
      rw [show innerTrim (q :: q2 :: qs2) = pyStrip q :: innerTrim (q2 :: qs2) from rfl]
      rw [show pyStrip q = trimRight isPySpace (q.dropWhile isPySpace) from rfl]
      rw [ic_cons ( ", ".toList) (trimRight isPySpace (q.dropWhile isPySpace))
        (innerTrim_ne_nil (by simp))]
      rw [ic_cons ( ", ".toList) ([] : Str) (by simp)]
      rw [ic_cons ( ", ".toList) (trimRight isPySpace (q.dropWhile isPySpace))
        (innerTrim_ne_nil (by simp))]
      rfl
  | case3 c cs h ih =>
    rw [subCommaWs_not_comma h]
    have hc : ¬ c = ',' := by
      intro h2
      subst h2
      exact h cs (by rw [List.dropWhile_cons_of_neg (by decide)])
    obtain ⟨p, ps, hp⟩ := splitOnComma_cons_form cs
    rw [splitOnComma_cons hc hp, ih, hp]
    cases ps with
    | nil =>
      rw [show adjTrim [p] = [p] from rfl,
        show adjTrim [c :: p] = [c :: p] from rfl, ic_single, ic_single]
    | cons p2 ps2 =>
      have hkey : ¬ (isPySpace c = true ∧ trimRight isPySpace p = []) := by
        rintro ⟨hwc, htp⟩
        have hpall : ∀ d ∈ p, isPySpace d = true := all_of_trimRight_eq_nil htp
        obtain ⟨-, hrest⟩ := splitOnComma_spec cs hp
        rcases hrest with ⟨hnil, -⟩ | ⟨r, hr, -⟩
        · cases hnil
        · refine h r ?_
          rw [List.dropWhile_cons_of_pos hwc, hr,
            List.dropWhile_append_of_pos hpall,
            List.dropWhile_cons_of_neg (by decide)]
      rw [show adjTrim (p :: p2 :: ps2) =
        trimRight isPySpace p :: innerTrim (p2 :: ps2) from rfl]
      rw [show adjTrim ((c :: p) :: p2 :: ps2) =
        trimRight isPySpace (c :: p) :: innerTrim (p2 :: ps2) from rfl]
      rw [trimRight_cons hkey]
      rw [ic_cons ( ", ".toList) (trimRight isPySpace p)
        (innerTrim_ne_nil (by simp))]
      rw [ic_cons ( ", ".toList) (c :: trimRight isPySpace p)
        (innerTrim_ne_nil (by simp))]
      rfl

/-! ## Character-pair scanning predicates -/

/-- `f` holds of every adjacent pair of characters. -/
def pairsOk (f : Char → Char → Bool) : Str → Bool
  | c :: d :: rest => f c d && pairsOk f (d :: rest)
  | _ => true

/-- The only whitespace character occurring is a plain space. -/
def onlySpaceWs (s : Str) : Bool :=
  s.all (fun c => !(isPySpace c) || c == ' ')

/-- No two adjacent whitespace characters (whitespace runs are single). -/
def noDoubleSpace (s : Str) : Bool :=
  pairsOk (fun c d => !(isPySpace c && isPySpace d)) s

/-- Every comma is immediately followed by a space (none at the end). -/
def commaSpace (s : Str) : Bool :=
  pairsOk (fun c d => !(c == ',') || d == ' ') s && !(s.getLast? == some ',')

/-- No two adjacent commas. -/
def noAdjComma (s : Str) : Bool :=
  pairsOk (fun c d => !(c == ',' && d == ',')) s

/-- No comma is preceded by a space. -/
def noSpaceBeforeComma (s : Str) : Bool :=
  pairsOk (fun c d => !(c == ' ' && d == ',')) s

/-- Number of commas. -/
def commaCount (s : Str) : Nat := (s.filter (fun c => c == ',')).length

/-- Number of maximal runs of consecutive commas. -/
def commaRunCount : Str → Nat
  | ',' :: ',' :: rest => commaRunCount (',' :: rest)
  | ',' :: rest => 1 + commaRunCount rest
  | _ :: rest => commaRunCount rest
  | [] => 0

theorem pairsOk_cons_cons {f : Char → Char → Bool} {c d : Char} {rest : Str} :
    pairsOk f (c :: d :: rest) = (f c d && pairsOk f (d :: rest)) := rfl

theorem pairsOk_tail {f : Char → Char → Bool} {c : Char} {s : Str}
    (h : pairsOk f (c :: s) = true) : pairsOk f s = true := by
  cases s with
  | nil => rfl
  | cons d rest =>
    rw [pairsOk_cons_cons, Bool.and_eq_true] at h
    exact h.2

theorem pairsOk_append_right {f : Char → Char → Bool} {b : Str} (a : Str)
    (h : pairsOk f (a ++ b) = true) : pairsOk f b = true := by
  induction a with
  | nil => exact h
  | cons c cs ih =>
    rw [List.cons_append] at h
    exact ih (pairsOk_tail h)

theorem pairsOk_append_left {f : Char → Char → Bool} {b : Str} (a : Str)
    (h : pairsOk f (a ++ b) = true) : pairsOk f a = true := by
  induction a with
  | nil => rfl
  | cons c cs ih =>
    cases cs with
    | nil => rfl
    | cons c2 cs2 =>
      rw [List.cons_append, List.cons_append, pairsOk_cons_cons,
        Bool.and_eq_true] at h
      rw [pairsOk_cons_cons, Bool.and_eq_true]
      refine ⟨h.1, ?_⟩
      have := ih (by rw [List.cons_append]; exact h.2)
      exact this

theorem pairsOk_chunk {f : Char → Char → Bool} {s a t b : Str}
    (hs : pairsOk f s = true) (hdec : s = a ++ t ++ b) :
    pairsOk f t = true := by
  rw [hdec] at hs
  exact pairsOk_append_left t (pairsOk_append_right a (by rwa [List.append_assoc] at hs))

theorem pairsOk_append {f : Char → Char → Bool} {a b : Str}
    (ha : pairsOk f a = true) (hb : pairsOk f b = true)
    (hab : ∀ x y, a.getLast? = some x → b.head? = some y → f x y = true) :
    pairsOk f (a ++ b) = true := by
  induction a with
  | nil => exact hb
  | cons c cs ih =>
    cases cs with
    | nil =>
      cases b with
      | nil => exact ha
      | cons d ds =>
        rw [List.singleton_append, pairsOk_cons_cons, Bool.and_eq_true]
        exact ⟨hab c d rfl rfl, hb⟩
    | cons c2 cs2 =>
      rw [pairsOk_cons_cons, Bool.and_eq_true] at ha
      rw [List.cons_append, List.cons_append, pairsOk_cons_cons, Bool.and_eq_true]
      constructor
      · exact ha.1
      · rw [← List.cons_append]
        exact ih ha.2 (fun x y hx hy => hab x y (by simpa using hx) hy)

theorem pairsOk_of_all_left {f : Char → Char → Bool} {s : Str}
    (h : ∀ c ∈ s, ∀ d, f c d = true) : pairsOk f s = true := by
  induction s with
  | nil => rfl
  | cons c cs ih =>
    cases cs with
    | nil => rfl
    | cons d rest =>
      rw [pairsOk_cons_cons, Bool.and_eq_true]
      exact ⟨h c (List.mem_cons_self _ _) d,
        ih (fun x hx d' => h x (List.mem_cons_of_mem c hx) d')⟩

theorem mem_dropWhile_subset {p : Char → Bool} {s : Str} {c : Char}
    (h : c ∈ s.dropWhile p) : c ∈ s := by
  have hdec : s = s.takeWhile p ++ s.dropWhile p :=
    (List.takeWhile_append_dropWhile p s).symm
  rw [hdec]
  exact List.mem_append_right _ h

theorem mem_pyStrip {s : Str} {c : Char} (h : c ∈ pyStrip s) : c ∈ s := by
  obtain ⟨t, hdec, -⟩ := trimRight_decomp isPySpace (s.dropWhile isPySpace)
  rw [pyStrip] at h
  have : c ∈ s.dropWhile isPySpace := by
    rw [hdec]
    exact List.mem_append_left _ h
  exact mem_dropWhile_subset this

theorem splitOnComma_chunk (s : Str) :
    ∀ p ∈ splitOnComma s, ∃ a b, s = a ++ p ++ b := by
  induction s with
  | nil =>
    intro p hp
    rw [splitOnComma_nil] at hp
    rcases List.mem_singleton.mp hp with rfl
    exact ⟨[], [], rfl⟩
  | cons c cs ih =>
    intro p hp
    by_cases hc : c = ','
    · subst hc
      rw [splitOnComma_comma] at hp
      rcases List.mem_cons.mp hp with rfl | hp2
      · exact ⟨[], ',' :: cs, rfl⟩
      · obtain ⟨a, b, hab⟩ := ih p hp2
        exact ⟨',' :: a, b, by rw [hab]; simp⟩
    · obtain ⟨q, qs, hq⟩ := splitOnComma_cons_form cs
      rw [splitOnComma_cons hc hq] at hp
      rcases List.mem_cons.mp hp with rfl | hp2
      · obtain ⟨-, hrest⟩ := splitOnComma_spec cs hq
        rcases hrest with ⟨-, rfl⟩ | ⟨r, hr, -⟩
        · exact ⟨[], [], by simp⟩
        · exact ⟨[], ',' :: r, by rw [hr]; simp⟩
      · obtain ⟨a, b, hab⟩ := ih p (hq ▸ List.mem_cons_of_mem q hp2)
        exact ⟨c :: a, b, by rw [hab]; simp⟩

/-! ## Pair properties of `intercalate` -/

theorem ic_head?_cases {sep : Str} (hsep : sep ≠ []) (L : List Str) {y : Char}
    (h : (List.intercalate sep L).head? = some y) :
    (∃ w ∈ L, w.head? = some y) ∨
      ((∃ w ∈ L, w = []) ∧ sep.head? = some y) := by
  induction L with
  | nil => cases h
  | cons w rest ih =>
    cases rest with
    | nil =>
      rw [ic_single] at h
      exact Or.inl ⟨w, List.mem_cons_self _ _, h⟩
    | cons w2 rest2 =>
      rw [ic_cons _ _ (by simp)] at h
      cases w with
      | nil =>
        rw [List.nil_append, List.head?_append_of_ne_nil sep hsep] at h
        exact Or.inr ⟨⟨[], List.mem_cons_self _ _, rfl⟩, h⟩
      | cons c w' =>
        rw [List.append_assoc, List.head?_append_of_ne_nil _ (by simp)] at h
        exact Or.inl ⟨c :: w', List.mem_cons_self _ _, h⟩

theorem ic_eq_nil_empty {sep : Str} (hsep : sep ≠ []) {L : List Str}
    (hne : L ≠ []) (h : List.intercalate sep L = []) : ∃ w ∈ L, w = [] := by
  cases L with
  | nil => exact absurd rfl hne
  | cons w rest =>
    cases rest with
    | nil =>
      rw [ic_single] at h
      exact ⟨w, List.mem_cons_self _ _, h⟩
    | cons w2 rest2 =>
      rw [ic_cons _ _ (by simp)] at h
      rcases List.append_eq_nil.mp h with ⟨h1, -⟩
      rcases List.append_eq_nil.mp h1 with ⟨-, h3⟩
      exact absurd h3 hsep

theorem ic_getLast?_cases {sep : Str} (hsep : sep ≠ []) (L : List Str) {x : Char}
    (h : (List.intercalate sep L).getLast? = some x) :
    (∃ w ∈ L, w.getLast? = some x) ∨
      ((∃ w ∈ L, w = []) ∧ sep.getLast? = some x) := by
  induction L with
  | nil => cases h
  | cons w rest ih =>
    cases rest with
    | nil =>
      rw [ic_single] at h
      exact Or.inl ⟨w, List.mem_cons_self _ _, h⟩
    | cons w2 rest2 =>
      rw [ic_cons _ _ (by simp)] at h
      by_cases hicr : List.intercalate sep (w2 :: rest2) = []
      · obtain ⟨v, hv, hvnil⟩ := ic_eq_nil_empty hsep (by simp) hicr
        rw [hicr, List.append_nil, List.getLast?_append_of_ne_nil _ hsep] at h
        exact Or.inr ⟨⟨v, List.mem_cons_of_mem w hv, hvnil⟩, h⟩
      · rw [List.append_assoc, List.getLast?_append_of_ne_nil _ ?hne] at h
        case hne =>
          intro hcon
          rcases List.append_eq_nil.mp hcon with ⟨h1, -⟩
          exact hsep h1
        rw [List.getLast?_append_of_ne_nil _ hicr] at h
        rcases ih h with ⟨v, hv, hvl⟩ | ⟨⟨v, hv, hvnil⟩, hsx⟩
        · exact Or.inl ⟨v, List.mem_cons_of_mem w hv, hvl⟩
        · exact Or.inr ⟨⟨v, List.mem_cons_of_mem w hv, hvnil⟩, hsx⟩

theorem pairsOk_intercalate {f : Char → Char → Bool} {sep : Str}
    (hsep : sep ≠ []) (hsepOk : pairsOk f sep = true) {L : List Str}
    (hpieces : ∀ w ∈ L, pairsOk f w = true)
    (hws : ∀ w ∈ L, ∀ x y, w.getLast? = some x → sep.head? = some y → f x y = true)
    (hsw : ∀ w ∈ L, ∀ x y, sep.getLast? = some x → w.head? = some y → f x y = true)
    (hss : (∃ w ∈ L, w = []) →
      ∀ x y, sep.getLast? = some x → sep.head? = some y → f x y = true) :
    pairsOk f (List.intercalate sep L) = true := by
  induction L with
  | nil => rfl
  | cons w rest ih =>
    cases rest with
    | nil =>
      rw [ic_single]
      exact hpieces w (List.mem_cons_self _ _)
    | cons w2 rest2 =>
      rw [ic_cons _ _ (by simp), List.append_assoc]
      have hbRec : pairsOk f (List.intercalate sep (w2 :: rest2)) = true :=
        ih (fun v hv => hpieces v (List.mem_cons_of_mem w hv))
          (fun v hv => hws v (List.mem_cons_of_mem w hv))
          (fun v hv => hsw v (List.mem_cons_of_mem w hv))
          (fun ⟨v, hv, hvnil⟩ => hss ⟨v, List.mem_cons_of_mem w hv, hvnil⟩)
      have hb : pairsOk f (sep ++ List.intercalate sep (w2 :: rest2)) = true := by
        apply pairsOk_append hsepOk hbRec
        intro x y hx hy
        rcases ic_head?_cases hsep _ hy with ⟨v, hv, hvy⟩ | ⟨⟨v, hv, hvnil⟩, hsy⟩
        · exact hsw v (List.mem_cons_of_mem w hv) x y hx hvy
        · exact hss ⟨v, List.mem_cons_of_mem w hv, hvnil⟩ x y hx hsy
      apply pairsOk_append (hpieces w (List.mem_cons_self _ _)) hb
      intro x y hx hy
      rw [List.head?_append_of_ne_nil sep hsep] at hy
      exact hws w (List.mem_cons_self _ _) x y hx hy

theorem head?_not_ws_of_stripped {q : Str} {y : Char} (h : pyStrip q = q)
    (hy : q.head? = some y) : isPySpace y = false := by
  cases q with
  | nil => cases hy
  | cons c cs =>
    injection hy with hy1
    subst hy1
    exact head_not_ws_of_stripped h

theorem getLast?_not_ws_of_stripped {q : Str} {x : Char} (h : pyStrip q = q)
    (hx : q.getLast? = some x) : isPySpace x = false := by
  obtain ⟨L, hL⟩ := List.getLast?_eq_some_iff.mp hx
  exact last_not_ws_of_stripped h hL

theorem pyStrip_chunk (s : Str) : ∃ a b, s = a ++ pyStrip s ++ b := by
  obtain ⟨t, hdec, -⟩ := trimRight_decomp isPySpace (s.dropWhile isPySpace)
  refine ⟨s.takeWhile isPySpace, t, ?_⟩
  rw [List.append_assoc]
  conv_lhs => rw [← List.takeWhile_append_dropWhile isPySpace s]
  show _ ++ List.dropWhile isPySpace s =
    _ ++ (trimRight isPySpace (List.dropWhile isPySpace s) ++ t)
  rw [← hdec]

/-! ## Character facts about `wsJoin` and the address pieces -/

theorem splitOnComma_comma_free (s : Str) :
    ∀ p ∈ splitOnComma s, ',' ∉ p := by
  induction s with
  | nil =>
    intro p hp
    rw [splitOnComma_nil] at hp
    rcases List.mem_singleton.mp hp with rfl
    simp
  | cons c cs ih =>
    intro p hp
    by_cases hc : c = ','
    · subst hc
      rw [splitOnComma_comma] at hp
      rcases List.mem_cons.mp hp with rfl | hp2
      · simp
      · exact ih p hp2
    · obtain ⟨q, qs, hq⟩ := splitOnComma_cons_form cs
      rw [splitOnComma_cons hc hq] at hp
      rcases List.mem_cons.mp hp with rfl | hp2
      · intro hm
        rcases List.mem_cons.mp hm with h1 | h1
        · exact hc h1.symm
        · exact ih q (hq ▸ List.mem_cons_self _ _) h1
      · exact ih p (hq ▸ List.mem_cons_of_mem q hp2)

theorem mem_ic_sep {sep : Str} {L : List Str} {c : Char}
    (h : c ∈ List.intercalate sep L) : (∃ w ∈ L, c ∈ w) ∨ c ∈ sep := by
  induction L with
  | nil => cases h
  | cons w rest ih =>
    cases rest with
    | nil =>
      rw [ic_single] at h
      exact Or.inl ⟨w, List.mem_cons_self _ _, h⟩
    | cons w2 rest2 =>
      rw [ic_cons _ _ (by simp)] at h
      rcases List.mem_append.mp h with h1 | h1
      · rcases List.mem_append.mp h1 with h2 | h2
        · exact Or.inl ⟨w, List.mem_cons_self _ _, h2⟩
        · exact Or.inr h2
      · rcases ih h1 with ⟨v, hv, hvc⟩ | h2
        · exact Or.inl ⟨v, List.mem_cons_of_mem w hv, hvc⟩
        · exact Or.inr h2

theorem mem_wsJoin {s : Str} {c : Char} (h : c ∈ wsJoin s) :
    isPySpace c = false ∨ c = ' ' := by
  rw [wsJoin] at h
  rcases mem_ic_sep h with ⟨w, hw, hc⟩ | hc
  · exact Or.inl ((words_mem s w hw).2 c hc)
  · exact Or.inr (List.mem_singleton.mp hc)

theorem onlySpaceWs_wsJoin (s : Str) : onlySpaceWs (wsJoin s) = true := by
  rw [onlySpaceWs, List.all_eq_true]
  intro c hc
  rcases mem_wsJoin hc with h | h
  · simp [h]
  · simp [h]

theorem noDoubleSpace_wsJoin (s : Str) : noDoubleSpace (wsJoin s) = true := by
  rw [wsJoin, noDoubleSpace]
  apply pairsOk_intercalate (by simp) (by rfl)
  · intro w hw
    apply pairsOk_of_all_left
    intro c hc d
    simp [(words_mem s w hw).2 c hc]
  · intro w hw x y hx hy
    have hxw : x ∈ w := List.mem_of_mem_getLast? hx
    simp [(words_mem s w hw).2 x hxw]
  · intro w hw x y hx hy
    have hyw : y ∈ w := List.mem_of_mem_head? hy
    simp [(words_mem s w hw).2 y hyw]
  · rintro ⟨w, hw, rfl⟩ x y hx hy
    exact absurd rfl (words_mem s [] hw).1

theorem trimRight_eq_self_of_getLast {p : Char → Bool} {z : Str}
    (h : ∀ x, z.getLast? = some x → p x = false) : trimRight p z = z := by
  rcases List.eq_nil_or_concat z with rfl | ⟨L, c, rfl⟩
  · rfl
  · rw [List.concat_eq_append] at h ⊢
    exact trimRight_append_last L (by simp [h c (List.getLast?_concat L)])

theorem getLast?_dropWhile {p : Char → Bool} {s : Str} {x : Char}
    (h : (s.dropWhile p).getLast? = some x) : s.getLast? = some x := by
  have hne : s.dropWhile p ≠ [] := by
    intro hcon
    rw [hcon] at h
    cases h
  conv_lhs => rw [← List.takeWhile_append_dropWhile p s]
  rw [List.getLast?_append_of_ne_nil _ hne]
  exact h

theorem pyStrip_eq_dropWhile_of_getLast {q : Str}
    (h : ∀ x, q.getLast? = some x → isPySpace x = false) :
    pyStrip q = q.dropWhile isPySpace := by
  rw [pyStrip]
  apply trimRight_eq_self_of_getLast
  intro x hx
  exact h x (getLast?_dropWhile hx)

theorem pyStrip_eq_trimRight_of_head {q : Str}
    (h : ∀ y, q.head? = some y → isPySpace y = false) :
    pyStrip q = trimRight isPySpace q := by
  rw [pyStrip]
  cases q with
  | nil => rfl
  | cons c cs =>
    rw [List.dropWhile_cons_of_neg (by simp [h c rfl])]

/-- The last piece of `splitOnComma s` closes the string. -/
theorem splitOnComma_last_suffix (s : Str) :
    ∀ {p : Str}, (splitOnComma s).getLast? = some p → ∃ a, s = a ++ p := by
  induction s with
  | nil =>
    intro p hp
    rw [splitOnComma_nil] at hp
    have hval : ([[]] : List Str).getLast? = some [] := rfl
    rw [hval] at hp
    have hp2 : p = [] := (Option.some.inj hp).symm
    subst hp2
    exact ⟨[], rfl⟩
  | cons c cs ih =>
    intro p hp
    by_cases hc : c = ','
    · subst hc
      rw [splitOnComma_comma] at hp
      obtain ⟨q, qs, hq⟩ := splitOnComma_cons_form cs
      rw [hq, List.getLast?_cons_cons] at hp
      obtain ⟨a, ha⟩ := ih (by rw [hq]; exact hp)
      exact ⟨',' :: a, by rw [ha]; rfl⟩
    · obtain ⟨q, qs, hq⟩ := splitOnComma_cons_form cs
      rw [splitOnComma_cons hc hq] at hp
      cases qs with
      | nil =>
        have hval : ([c :: q] : List Str).getLast? = some (c :: q) := rfl
        rw [hval] at hp
        have hp2 : p = c :: q := (Option.some.inj hp).symm
        subst hp2
        obtain ⟨-, hrest⟩ := splitOnComma_spec cs hq
        rcases hrest with ⟨-, rfl⟩ | ⟨r, hr, hsp⟩
        · exact ⟨[], rfl⟩
        · exact absurd hsp (by simp [splitOnComma_ne_nil r])
      | cons q2 qs2 =>
        rw [List.getLast?_cons_cons] at hp
        obtain ⟨a, ha⟩ := ih (by rw [hq, List.getLast?_cons_cons]; exact hp)
        exact ⟨c :: a, by rw [ha]; rfl⟩

theorem innerTrim_eq_map : ∀ {qs : List Str},
    (∀ p, qs.getLast? = some p → pyStrip p = p.dropWhile isPySpace) →
    innerTrim qs = qs.map pyStrip
  | [], _ => rfl
  | [q], hl => by
    rw [show innerTrim [q] = [q.dropWhile isPySpace] from rfl, List.map_singleton,
      hl q rfl]
  | q :: q2 :: qs2, hl => by
    rw [show innerTrim (q :: q2 :: qs2) = pyStrip q :: innerTrim (q2 :: qs2) from rfl,
      List.map_cons]
    rw [innerTrim_eq_map (fun p hp => hl p (by rw [List.getLast?_cons_cons]; exact hp))]

/-- On a stripped string, the comma-adjacent trim of every piece is a
full strip. -/
theorem adjTrim_eq_map_pyStrip {w : Str} (hw : pyStrip w = w) :
    adjTrim (splitOnComma w) = (splitOnComma w).map pyStrip := by
  obtain ⟨q, qs, hq⟩ := splitOnComma_cons_form w
  rw [hq]
  cases qs with
  | nil =>
    obtain ⟨-, hrest⟩ := splitOnComma_spec w hq
    rcases hrest with ⟨-, rfl⟩ | ⟨r, hr, hsp⟩
    · rw [show adjTrim [w] = [w] from rfl, List.map_singleton, hw]
    · exact absurd hsp (by simp [splitOnComma_ne_nil r])
  | cons q2 qs2 =>
    rw [show adjTrim (q :: q2 :: qs2) =
      trimRight isPySpace q :: innerTrim (q2 :: qs2) from rfl, List.map_cons]
    have hfirst : pyStrip q = trimRight isPySpace q := by
      apply pyStrip_eq_trimRight_of_head
      intro y hy
      obtain ⟨-, hrest⟩ := splitOnComma_spec w hq
      rcases hrest with ⟨hnil, -⟩ | ⟨r, hr, -⟩
      · cases hnil
      · have hqne : q ≠ [] := by
          intro hcon
          rw [hcon] at hy
          cases hy
        have hwy : w.head? = some y := by
          rw [hr, List.head?_append_of_ne_nil q hqne]
          exact hy
        exact head?_not_ws_of_stripped hw hwy
    have hlast : ∀ p, (q2 :: qs2).getLast? = some p →
        pyStrip p = p.dropWhile isPySpace := by
      intro p hp
      apply pyStrip_eq_dropWhile_of_getLast
      intro x hx
      have hpw : (splitOnComma w).getLast? = some p := by
        rw [hq, List.getLast?_cons_cons]
        exact hp
      obtain ⟨a, ha⟩ := splitOnComma_last_suffix w hpw
      have hpne : p ≠ [] := by
        intro hcon
        rw [hcon] at hx
        cases hx
      have hwx : w.getLast? = some x := by
        rw [ha, List.getLast?_append_of_ne_nil _ hpne]
        exact hx
      exact getLast?_not_ws_of_stripped hw hwx
    rw [hfirst, innerTrim_eq_map hlast]

/-- The stripped pieces between the commas of `wsJoin s`. -/
def addrPieces (s : Str) : List Str :=
  (splitOnComma (wsJoin s)).map pyStrip

theorem subCommaWs_wsJoin (s : Str) :
    subCommaWs (wsJoin s) =
      List.intercalate ( ", ".toList) (addrPieces s) := by
  rw [subCommaWs_char, adjTrim_eq_map_pyStrip (pyStrip_wsJoin s), addrPieces]

theorem addrPieces_stripped {s : Str} : ∀ q ∈ addrPieces s, pyStrip q = q := by
  intro q hq
  obtain ⟨q0, -, rfl⟩ := List.mem_map.mp hq
  exact pyStrip_idem q0

theorem addrPieces_comma_free {s : Str} : ∀ q ∈ addrPieces s, ',' ∉ q := by
  intro q hq hmem
  obtain ⟨q0, hq0, rfl⟩ := List.mem_map.mp hq
  exact splitOnComma_comma_free _ q0 hq0 (mem_pyStrip hmem)

theorem addrPieces_chunk {s : Str} : ∀ q ∈ addrPieces s,
    ∃ a b, wsJoin s = a ++ q ++ b := by
  intro q hq
  obtain ⟨q0, hq0, rfl⟩ := List.mem_map.mp hq
  obtain ⟨a, b, hab⟩ := splitOnComma_chunk _ q0 hq0
  obtain ⟨a2, b2, hab2⟩ := pyStrip_chunk q0
  refine ⟨a ++ a2, b2 ++ b, ?_⟩
  rw [hab]
  conv_lhs => rw [hab2]
  simp [List.append_assoc]

theorem addrPieces_space {s : Str} : ∀ q ∈ addrPieces s,
    ∀ c ∈ q, isPySpace c = false ∨ c = ' ' := by
  intro q hq c hc
  obtain ⟨a, b, hab⟩ := addrPieces_chunk q hq
  apply mem_wsJoin (s := s)
  rw [hab]
  exact List.mem_append_left _ (List.mem_append_right _ hc)

theorem addrPieces_noDouble {s : Str} : ∀ q ∈ addrPieces s,
    noDoubleSpace q = true := by
  intro q hq
  obtain ⟨a, b, hab⟩ := addrPieces_chunk q hq
  exact pairsOk_chunk (noDoubleSpace_wsJoin s) hab

/-! ## Properties of the address normal form -/

theorem pairsOk_imp {f g : Char → Char → Bool}
    (hfg : ∀ x y, f x y = true → g x y = true) :
    ∀ {z : Str}, pairsOk f z = true → pairsOk g z = true
  | [], _ => rfl
  | [c], _ => rfl
  | c :: d :: rest, h => by
    rw [pairsOk_cons_cons, Bool.and_eq_true] at h
    rw [pairsOk_cons_cons, Bool.and_eq_true]
    exact ⟨hfg c d h.1, pairsOk_imp hfg h.2⟩

theorem commaSpace_subCommaWs_wsJoin (s : Str) :
    commaSpace (subCommaWs (wsJoin s)) = true := by
  rw [subCommaWs_wsJoin, commaSpace, Bool.and_eq_true]
  constructor
  · apply pairsOk_intercalate (by simp) (by rfl)
    · intro q hq
      apply pairsOk_of_all_left
      intro c hc d
      have : ¬ c = ',' := fun h => addrPieces_comma_free q hq (h ▸ hc)
      simp [this]
    · intro q hq x y hx hy
      have hxq : x ∈ q := List.mem_of_mem_getLast? hx
      have : ¬ x = ',' := fun h => addrPieces_comma_free q hq (h ▸ hxq)
      simp [this]
    · intro q hq x y hx hy
      have hx2 : x = ' ' := by
        have : ( ", ".toList).getLast? = some ' ' := rfl
        rw [this] at hx
        exact (Option.some.inj hx).symm
      subst hx2
      simp
    · intro hempty x y hx hy
      have hx2 : x = ' ' := by
        have : ( ", ".toList).getLast? = some ' ' := rfl
        rw [this] at hx
        exact (Option.some.inj hx).symm
      subst hx2
      simp
  · cases hlast : (List.intercalate ( ", ".toList) (addrPieces s)).getLast? with
    | none => rfl
    | some x =>
      have hxne : ¬ x = ',' := by
        rcases ic_getLast?_cases (by simp) _ hlast with ⟨q, hq, hqx⟩ | ⟨-, hsx⟩
        · intro h
          exact addrPieces_comma_free q hq (h ▸ List.mem_of_mem_getLast? hqx)
        · have : ( ", ".toList).getLast? = some ' ' := rfl
          rw [this] at hsx
          have := (Option.some.inj hsx).symm
          subst this
          simp
      simp [hxne]

theorem noDoubleSpace_subCommaWs_wsJoin (s : Str) :
    noDoubleSpace (subCommaWs (wsJoin s)) = true := by
  rw [subCommaWs_wsJoin, noDoubleSpace]
  apply pairsOk_intercalate (by simp) (by rfl)
  · exact fun q hq => addrPieces_noDouble q hq
  · intro q hq x y hx hy
    have := getLast?_not_ws_of_stripped (addrPieces_stripped q hq) hx
    simp [this]
  · intro q hq x y hx hy
    have := head?_not_ws_of_stripped (addrPieces_stripped q hq) hy
    simp [this]
  · intro hempty x y hx hy
    have hy2 : y = ',' := by
      have : ( ", ".toList).head? = some ',' := rfl
      rw [this] at hy
      exact (Option.some.inj hy).symm
    subst hy2
    simp [isPySpace]

theorem onlySpaceWs_subCommaWs_wsJoin (s : Str) :
    onlySpaceWs (subCommaWs (wsJoin s)) = true := by
  rw [subCommaWs_wsJoin, onlySpaceWs, List.all_eq_true]
  intro c hc
  rcases mem_ic_sep hc with ⟨q, hq, hcq⟩ | hcs
  · rcases addrPieces_space q hq c hcq with h | h
    · simp [h]
    · simp [h]
  · rcases List.mem_cons.mp hcs with rfl | hcs2
    · simp [isPySpace]
    · rcases List.mem_singleton.mp hcs2 with rfl
      simp

theorem noAdjComma_of_commaSpace {z : Str} (h : commaSpace z = true) :
    noAdjComma z = true := by
  rw [commaSpace, Bool.and_eq_true] at h
  rw [noAdjComma]
  apply pairsOk_imp (f := fun c d => !(c == ',') || d == ' ') ?_ h.1
  intro x y hxy
  rcases Bool.or_eq_true_iff.mp hxy with h1 | h1
  · simp only [Bool.not_eq_true'] at h1
    simp [h1]
  · have : y = ' ' := by simpa using h1
    subst this
    simp

theorem subCommas_nil : subCommas [] = [] := rfl

theorem subCommas_cons_ne {c : Char} {rest : Str}
    (h : ∀ r, c = ',' → rest = ',' :: r → False) :
    subCommas (c :: rest) = c :: subCommas rest := by
  rw [subCommas.eq_def]
  split
  · rename_i heq
    injection heq
  · rename_i r heq
    injection heq with h1 h2
    exact (h r h1 h2).elim
  · rename_i c2 rest2 hside heq
    injection heq with h1 h2
    rw [h1, h2]

theorem subCommas_eq_self {z : Str} (h : noAdjComma z = true) :
    subCommas z = z := by
  induction z using subCommas.induct with
  | case1 => rfl
  | case2 rest ih =>
    rw [noAdjComma, pairsOk_cons_cons] at h
    simp at h
  | case3 c rest hside ih =>
    rw [subCommas_cons_ne hside]
    rw [ih (by
      rw [noAdjComma] at h ⊢
      exact pairsOk_tail h)]

/-! ## Comma membership through the two comma passes -/

theorem subCommaWs_no_comma {w : Str} (h : ',' ∉ w) : subCommaWs w = w := by
  induction w using subCommaWs.induct with
  | case1 => exact subCommaWs_nil
  | case2 c cs r2 hdw ih =>
    exfalso
    apply h
    have : ',' ∈ (c :: cs).dropWhile isPySpace := by
      rw [hdw]
      exact List.mem_cons_self _ _
    exact mem_dropWhile_subset this
  | case3 c cs hside ih =>
    rw [subCommaWs_not_comma hside]
    rw [ih (fun hm => h (List.mem_cons_of_mem c hm))]

theorem comma_mem_subCommaWs {w : Str} (h : ',' ∈ w) :
    ',' ∈ subCommaWs w := by
  induction w using subCommaWs.induct with
  | case1 => cases h
  | case2 c cs r2 hdw ih =>
    rw [subCommaWs_comma hdw]
    exact List.mem_cons_self _ _
  | case3 c cs hside ih =>
    rw [subCommaWs_not_comma hside]
    rcases List.mem_cons.mp h with hc | hc
    · rw [← hc]
      exact List.mem_cons_self _ _
    · exact List.mem_cons_of_mem c (ih hc)

theorem subCommas_no_comma {z : Str} (h : ',' ∉ z) : subCommas z = z := by
  induction z using subCommas.induct with
  | case1 => rfl
  | case2 rest ih =>
    exact absurd (List.mem_cons_self _ _) h
  | case3 c rest hside ih =>
    rw [subCommas_cons_ne hside,
      ih (fun hm => h (List.mem_cons_of_mem c hm))]

theorem comma_mem_subCommas {z : Str} (h : ',' ∈ z) : ',' ∈ subCommas z := by
  induction z using subCommas.induct with
  | case1 => cases h
  | case2 rest ih =>
    rw [show subCommas (',' :: ',' :: rest) = subCommas (',' :: rest) from rfl]
    exact ih (List.mem_cons_self _ _)
  | case3 c rest hside ih =>
    rw [subCommas_cons_ne hside]
    rcases List.mem_cons.mp h with hc | hc
    · rw [← hc]
      exact List.mem_cons_self _ _
    · exact List.mem_cons_of_mem c (ih hc)

/-! ## The whitespace-join is the identity on normalized strings -/

theorem last_not_of_trimRight_eq {z L : Str} {e : Char}
    (h : trimRight isPySpace z = z) (hdec : z = L ++ [e]) :
    isPySpace e = false := by
  by_contra hc
  rw [Bool.not_eq_false] at hc
  rw [hdec] at h
  have h2 : trimRight isPySpace (L ++ [e]) = trimRight isPySpace L :=
    trimRight_append_allp L (by intro d hd; rw [List.mem_singleton.mp hd]; exact hc)
  rw [h2] at h
  have := length_trimRight_le isPySpace L
  rw [h] at this
  simp at this

theorem mem_trimRight {p : Char → Bool} {z : Str} {c : Char}
    (h : c ∈ trimRight p z) : c ∈ z := by
  obtain ⟨t, hdec, -⟩ := trimRight_decomp p z
  rw [hdec]
  exact List.mem_append_left _ h

theorem wsJoin_nf_aux (n : Nat) : ∀ z : Str, z.length ≤ n →
    onlySpaceWs z = true → noDoubleSpace z = true →
    z.dropWhile isPySpace = z → trimRight isPySpace z = z →
    wsJoin z = z := by
  induction n with
  | zero =>
    intro z hlen _ _ _ _
    have : z = [] := List.length_eq_zero.mp (Nat.le_zero.mp hlen)
    subst this
    rw [wsJoin, words_nil]
    rfl
  | succ n ih =>
    intro z hlen hos hnd hdw htr
    cases z with
    | nil =>
      rw [wsJoin, words_nil]
      rfl
    | cons c cs =>
      have hc : isPySpace c = false := by
        by_contra hcc
        rw [Bool.not_eq_false] at hcc
        rw [List.dropWhile_cons_of_pos hcc] at hdw
        have := length_dropWhile_le isPySpace cs
        rw [hdw] at this
        simp at this
      rw [wsJoin, words_cons_not cs (by simp [hc])]
      cases hd : cs.dropWhile (fun d => !isPySpace d) with
      | nil =>
        have hcs : cs.takeWhile (fun d => !isPySpace d) = cs := by
          conv_rhs => rw [← List.takeWhile_append_dropWhile
            (fun d => !isPySpace d) cs]
          rw [hd, List.append_nil]
        rw [hcs]
        rw [words_nil, ic_single]
      | cons e d2 =>
        have hdecz : c :: cs =
            (c :: cs.takeWhile (fun d => !isPySpace d)) ++ e :: d2 := by
          conv_lhs => rw [show cs = cs.takeWhile (fun d => !isPySpace d) ++
            cs.dropWhile (fun d => !isPySpace d) from
              (List.takeWhile_append_dropWhile _ cs).symm]
          rw [hd]
          rfl
        have hews : isPySpace e = true := by
          have := List.head?_dropWhile_not (fun d => !isPySpace d) cs
          rw [hd] at this
          simpa using this
        have hd2ne : d2 ≠ [] := by
          intro hcon
          subst hcon
          exact absurd (last_not_of_trimRight_eq htr (by rw [hdecz]))
            (by simp [hews])
        obtain ⟨f, d3, hfd⟩ : ∃ f d3, d2 = f :: d3 := by
          cases d2 with
          | nil => exact absurd rfl hd2ne
          | cons f d3 => exact ⟨f, d3, rfl⟩
        have hfnw : isPySpace f = false := by
          have hpair : pairsOk
              (fun c d => !(isPySpace c && isPySpace d)) (e :: d2) = true := by
            apply pairsOk_append_right (c :: cs.takeWhile (fun d => !isPySpace d))
            rw [← hdecz]
            exact hnd
          rw [hfd, pairsOk_cons_cons, Bool.and_eq_true] at hpair
          have := hpair.1
          rw [hews] at this
          simpa using this
        have hdw2 : d2.dropWhile isPySpace = d2 := by
          rw [hfd, List.dropWhile_cons_of_neg (by simp [hfnw])]
        have htr2 : trimRight isPySpace d2 = d2 := by
          rcases List.eq_nil_or_concat d2 with rfl | ⟨L, x, hLx⟩
          · rfl
          · rw [List.concat_eq_append] at hLx
            have hxz : c :: cs =
                ((c :: cs.takeWhile (fun d => !isPySpace d)) ++ e :: L) ++ [x] := by
              rw [hdecz, hLx]
              simp
            have := last_not_of_trimRight_eq htr hxz
            rw [hLx]
            exact trimRight_append_last L (by simp [this])
        have hos2 : onlySpaceWs d2 = true := by
          rw [onlySpaceWs, List.all_eq_true]
          intro d hdm
          rw [onlySpaceWs, List.all_eq_true] at hos
          apply hos
          rw [hdecz]
          exact List.mem_append_right _ (List.mem_cons_of_mem e hdm)
        have hnd2 : noDoubleSpace d2 = true := by
          have : noDoubleSpace (e :: d2) = true := by
            apply pairsOk_append_right (c :: cs.takeWhile (fun d => !isPySpace d))
            rw [← hdecz]
            exact hnd
          exact pairsOk_tail this
        have hlen2 : d2.length ≤ n := by
          have : (c :: cs).length ≤ n + 1 := hlen
          have h2 : (c :: cs).length =
              (c :: cs.takeWhile (fun d => !isPySpace d)).length + 1 + d2.length := by
            rw [hdecz]
            simp
            omega
          omega
        have hrec := ih d2 hlen2 hos2 hnd2 hdw2 htr2
        have hes : e = ' ' := by
          rw [onlySpaceWs, List.all_eq_true] at hos
          have := hos e (by rw [hdecz]; exact List.mem_append_right _ (List.mem_cons_self _ _))
          rw [hews] at this
          simpa using this
        rw [words_cons_ws _ hews]
        have hwd2 : words d2 ≠ [] := by
          rw [hfd, words_cons_not d3 (by simp [hfnw])]
          simp
        rw [ic_cons _ _ hwd2]
        have : List.intercalate ( " ".toList) (words d2) = d2 := by
          rw [← wsJoin]
          exact hrec
        rw [this]
        conv_rhs => rw [hdecz]
        rw [hes]
        simp

theorem wsJoin_nf {z : Str} (hos : onlySpaceWs z = true)
    (hnd : noDoubleSpace z = true) (hdw : z.dropWhile isPySpace = z)
    (htr : trimRight isPySpace z = z) : wsJoin z = z :=
  wsJoin_nf_aux z.length z (Nat.le_refl _) hos hnd hdw htr

/-! ## Re-running the comma pass on its own output -/

theorem adjTrim_cons_ne {p : Str} {ps : List Str} (h : ps ≠ []) :
    adjTrim (p :: ps) = trimRight isPySpace p :: innerTrim ps := by
  cases ps with
  | nil => exact absurd rfl h
  | cons q qs => rfl

theorem innerTrim_cons_ne {q : Str} {qs : List Str} (h : qs ≠ []) :
    innerTrim (q :: qs) = pyStrip q :: innerTrim qs := by
  cases qs with
  | nil => exact absurd rfl h
  | cons q2 qs2 => rfl

theorem ic_concat {L : List Str} (h : L ≠ []) (p : Str) :
    List.intercalate ( ", ".toList) (L ++ [p]) =
      List.intercalate ( ", ".toList) L ++ ( ", ".toList) ++ p := by
  induction L with
  | nil => exact absurd rfl h
  | cons w rest ih =>
    cases rest with
    | nil =>
      rw [List.singleton_append, ic_cons _ _ (by simp), ic_single, ic_single]
    | cons w2 rest2 =>
      rw [List.cons_append, ic_cons _ _ (by simp), ic_cons _ _ (by simp),
        ih (by simp)]
      simp [List.append_assoc]

theorem splitOnComma_ic {q : Str} {qs : List Str}
    (hq : ',' ∉ q) (hqs : ∀ p ∈ qs, ',' ∉ p) :
    splitOnComma (List.intercalate ( ", ".toList) (q :: qs)) =
      q :: qs.map (fun p => ' ' :: p) := by
  induction qs generalizing q with
  | nil =>
    rw [ic_single, splitOnComma_no_comma hq]
    rfl
  | cons q2 qs2 ih =>
    rw [ic_cons _ _ (by simp)]
    have hassoc : q ++ ( ", ".toList) ++
        List.intercalate ( ", ".toList) (q2 :: qs2) =
        q ++ ',' :: (' ' :: List.intercalate ( ", ".toList) (q2 :: qs2)) := by
      simp
    rw [hassoc, splitOnComma_append_comma hq]
    have hih := ih (hqs q2 (List.mem_cons_self _ _))
      (fun p hp => hqs p (List.mem_cons_of_mem q2 hp))
    rw [splitOnComma_cons (by decide) hih]
    rfl

theorem splitOnComma_append_comma_nil (a : Str) :
    splitOnComma (a ++ [',']) = splitOnComma a ++ [[]] := by
  induction a with
  | nil => rfl
  | cons c cs ih =>
    by_cases hc : c = ','
    · subst hc
      rw [List.cons_append, splitOnComma_comma, splitOnComma_comma, ih]
      rfl
    · obtain ⟨p, ps, hp⟩ := splitOnComma_cons_form cs
      have hp2 : splitOnComma (cs ++ [',']) = p :: (ps ++ [[]]) := by
        rw [ih, hp]
        rfl
      rw [List.cons_append, splitOnComma_cons hc hp2, splitOnComma_cons hc hp]
      rfl

theorem trimRight_append_comma_space (a : Str) :
    trimRight isPySpace (a ++ [',', ' ']) = a ++ [','] := by
  have h1 : a ++ [',', ' '] = (a ++ [',']) ++ [' '] := by simp
  rw [h1]
  rw [trimRight_append_allp (a ++ [','])
    (by intro d hd; rw [List.mem_singleton.mp hd]; rfl)]
  exact trimRight_append_last a (by decide)

theorem innerTrim_map_strip {tail : List Str}
    (hstr : ∀ p ∈ tail, pyStrip p = p) :
    innerTrim (tail.map (fun p => ' ' :: p)) = tail := by
  induction tail with
  | nil => rfl
  | cons t rest ih =>
    cases rest with
    | nil =>
      rw [List.map_singleton,
        show innerTrim [' ' :: t] = [(' ' :: t).dropWhile isPySpace] from rfl,
        List.dropWhile_cons_of_pos (by rfl),
        dropWhile_of_stripped (hstr t (List.mem_cons_self _ _))]
    | cons t2 rest2 =>
      rw [List.map_cons, innerTrim_cons_ne (by simp),
        pyStrip_cons_ws t (by rfl), hstr t (List.mem_cons_self _ _),
        ih (fun p hp => hstr p (List.mem_cons_of_mem t hp))]

theorem innerTrim_map_strip_nil {tail : List Str}
    (hstr : ∀ p ∈ tail, pyStrip p = p) :
    innerTrim (tail.map (fun p => ' ' :: p) ++ [[]]) = tail ++ [[]] := by
  induction tail with
  | nil => rfl
  | cons t rest ih =>
    rw [List.map_cons, List.cons_append, innerTrim_cons_ne (by simp),
      pyStrip_cons_ws t (by rfl), hstr t (List.mem_cons_self _ _),
      ih (fun p hp => hstr p (List.mem_cons_of_mem t hp))]
    rfl

/-- Re-running the comma pass on a trimmed normal form restores it. -/
theorem addr_replay (qs : List Str) (hne : qs ≠ [])
    (hq : ∀ p ∈ qs, pyStrip p = p ∧ ',' ∉ p) :
    subCommaWs (trimRight isPySpace (List.intercalate ( ", ".toList) qs)) =
      List.intercalate ( ", ".toList) qs := by
  rcases List.eq_nil_or_concat qs with rfl | ⟨L0, plast, hcat⟩
  · exact absurd rfl hne
  rw [List.concat_eq_append] at hcat
  subst hcat
  rcases List.eq_nil_or_concat plast with rfl | ⟨Lp, x, hxp⟩
  · -- last piece empty
    cases L0 with
    | nil =>
      rw [List.nil_append, ic_single,
        show trimRight isPySpace [] = [] from rfl, subCommaWs_nil]
    | cons q0 tail0 =>
      have hL0 : (q0 :: tail0 : List Str) ≠ [] := by simp
      rw [ic_concat hL0]
      have hy : List.intercalate ( ", ".toList) (q0 :: tail0) ++
          ( ", ".toList) ++ [] =
          List.intercalate ( ", ".toList) (q0 :: tail0) ++ [',', ' '] := by
        simp
      rw [hy, trimRight_append_comma_space, subCommaWs_char,
        splitOnComma_append_comma_nil]
      have hq0 : ',' ∉ q0 := (hq q0 (by simp)).2
      have htail : ∀ p ∈ tail0, ',' ∉ p :=
        fun p hp => (hq p (by simp [hp])).2
      rw [splitOnComma_ic hq0 htail]
      rw [show (q0 :: tail0.map (fun p => ' ' :: p)) ++ [[]] =
        q0 :: (tail0.map (fun p => ' ' :: p) ++ [[]]) from rfl]
      rw [adjTrim_cons_ne (by simp)]
      rw [trimRight_of_stripped (hq q0 (by simp)).1]
      rw [innerTrim_map_strip_nil (fun p hp => (hq p (by simp [hp])).1)]
      rw [show q0 :: (tail0 ++ [[]]) = (q0 :: tail0) ++ [[]] from rfl]
      rw [ic_concat hL0]
      simp
  · -- last piece nonempty
    rw [List.concat_eq_append] at hxp
    have hxnw : isPySpace x = false := by
      have hstr := (hq plast (by simp)).1
      exact last_not_ws_of_stripped hstr hxp
    have htr : trimRight isPySpace
        (List.intercalate ( ", ".toList) (L0 ++ [plast])) =
        List.intercalate ( ", ".toList) (L0 ++ [plast]) := by
      cases L0 with
      | nil =>
        rw [List.nil_append, ic_single]
        exact trimRight_of_stripped (hq plast (by simp)).1
      | cons q0 tail0 =>
        rw [ic_concat (by simp), hxp, ← List.append_assoc]
        exact trimRight_append_last _ (by simp [hxnw])
    rw [htr, subCommaWs_char]
    obtain ⟨q0, tail0, hqt⟩ : ∃ q0 tail0, L0 ++ [plast] = q0 :: tail0 := by
      cases L0 with
      | nil => exact ⟨plast, [], rfl⟩
      | cons a as => exact ⟨a, as ++ [plast], rfl⟩
    rw [hqt]
    have hq0 : ',' ∉ q0 := (hq q0 (by rw [hqt]; simp)).2
    have htail : ∀ p ∈ tail0, ',' ∉ p :=
      fun p hp => (hq p (by rw [hqt]; simp [hp])).2
    rw [splitOnComma_ic hq0 htail]
    cases tail0 with
    | nil =>
      rw [List.map_nil]
      rfl
    | cons t1 rest1 =>
      rw [List.map_cons, adjTrim_cons_ne (by simp),
        trimRight_of_stripped (hq q0 (by rw [hqt]; simp)).1]
      have : innerTrim ((' ' :: t1) :: rest1.map (fun p => ' ' :: p)) =
          t1 :: rest1 := by
        have := @innerTrim_map_strip (t1 :: rest1)
          (fun p hp => (hq p (by rw [hqt]; simp [hp])).1)
        rw [List.map_cons] at this
        exact this
      rw [this]

theorem wsJoin_pyStrip (z : Str) : wsJoin (pyStrip z) = wsJoin z := by
  rw [wsJoin, wsJoin, words_pyStrip]

theorem head_not_ws_of_dropWhile_eq {c : Char} {cs : Str}
    (h : (c :: cs).dropWhile isPySpace = c :: cs) : isPySpace c = false := by
  by_contra hc
  rw [Bool.not_eq_false] at hc
  rw [List.dropWhile_cons_of_pos hc] at h
  have := length_dropWhile_le isPySpace cs
  rw [h] at this
  simp at this

theorem dropWhile_subCommaWs_wsJoin (s : Str) :
    (subCommaWs (wsJoin s)).dropWhile isPySpace = subCommaWs (wsJoin s) := by
  rw [subCommaWs_wsJoin]
  cases hy : List.intercalate ( ", ".toList) (addrPieces s) with
  | nil => rfl
  | cons c rest =>
    apply List.dropWhile_cons_of_neg
    have hhead : (List.intercalate ( ", ".toList) (addrPieces s)).head? = some c := by
      rw [hy]
      rfl
    rcases ic_head?_cases (by simp) _ hhead with ⟨q, hq, hqc⟩ | ⟨-, hsc⟩
    · simp [head?_not_ws_of_stripped (addrPieces_stripped q hq) hqc]
    · have : ( ", ".toList).head? = some ',' := rfl
      rw [this] at hsc
      have h2 := (Option.some.inj hsc).symm
      subst h2
      simp [isPySpace]

theorem addrPieces_ne_nil (s : Str) : addrPieces s ≠ [] := by
  rw [addrPieces]
  simp [splitOnComma_ne_nil (wsJoin s)]

/-- Cleaning a cleaned, re-stripped address gives it back. -/
theorem clean_address_roundtrip (s : Str) (hs : pyStrip s = s)
    (hsurv : pyStrip (clean_address (some s)) ≠ []) :
    clean_address (some (pyStrip (clean_address (some s)))) =
      clean_address (some s) := by
  by_cases hguard : s = "nan".toList ∨ s = []
  · exfalso
    apply hsurv
    have h0 : clean_address (some s) = [] := by
      simp only [clean_address, if_pos hguard]
    rw [h0]
    rfl
  · have hca : clean_address (some s) = subCommas (subCommaWs (wsJoin s)) := by
      simp only [clean_address, if_neg hguard]
    have hna : noAdjComma (subCommaWs (wsJoin s)) = true :=
      noAdjComma_of_commaSpace (commaSpace_subCommaWs_wsJoin s)
    have hsub : subCommas (subCommaWs (wsJoin s)) = subCommaWs (wsJoin s) :=
      subCommas_eq_self hna
    have hca2 : clean_address (some s) = subCommaWs (wsJoin s) := by
      rw [hca, hsub]
    have hyic : subCommaWs (wsJoin s) =
        List.intercalate ( ", ".toList) (addrPieces s) := subCommaWs_wsJoin s
    have hpieces : ∀ q ∈ addrPieces s, pyStrip q = q ∧ ',' ∉ q :=
      fun q hq => ⟨addrPieces_stripped q hq, addrPieces_comma_free q hq⟩
    have hnl : (subCommaWs (wsJoin s)).dropWhile isPySpace =
        subCommaWs (wsJoin s) := dropWhile_subCommaWs_wsJoin s
    have hzneq : pyStrip (subCommaWs (wsJoin s)) ≠ [] := by
      rw [← hca2]
      exact hsurv
    have hznan : pyStrip (subCommaWs (wsJoin s)) ≠ "nan".toList := by
      intro hcon
      have hps : pyStrip (subCommaWs (wsJoin s)) =
          trimRight isPySpace (subCommaWs (wsJoin s)) := by
        rw [pyStrip, hnl]
      obtain ⟨t, hdec, ht⟩ := trimRight_decomp isPySpace (subCommaWs (wsJoin s))
      have hcm : ',' ∉ subCommaWs (wsJoin s) := by
        rw [hdec, ← hps, hcon]
        intro hm
        rcases List.mem_append.mp hm with h1 | h1
        · simp at h1
        · have := ht ',' h1
          simp [isPySpace] at this
      have hcw : ',' ∉ wsJoin s := fun hm => hcm (comma_mem_subCommaWs hm)
      have hyw : subCommaWs (wsJoin s) = wsJoin s := subCommaWs_no_comma hcw
      have htw : trimRight isPySpace (wsJoin s) = wsJoin s :=
        trimRight_of_stripped (pyStrip_wsJoin s)
      have hwnan : wsJoin s = "nan".toList := by
        rw [← htw, ← hyw, ← hps, hcon]
      have hwords : words s = [ "nan".toList] := by
        rw [← words_wsJoin, hwnan]
        exact words_single (by simp) (by decide)
      have := stripped_single_word hs hwords
      exact hguard (Or.inl this)
    have hguard2 : ¬ (pyStrip (subCommaWs (wsJoin s)) = "nan".toList ∨
        pyStrip (subCommaWs (wsJoin s)) = []) := by
      rintro (h1 | h1)
      · exact hznan h1
      · exact hzneq h1
    rw [hca2]
    have hca3 : clean_address (some (pyStrip (subCommaWs (wsJoin s)))) =
        subCommas (subCommaWs (wsJoin (pyStrip (subCommaWs (wsJoin s))))) := by
      simp only [clean_address, if_neg hguard2]
    rw [hca3]
    have hwj1 : wsJoin (pyStrip (subCommaWs (wsJoin s))) =
        wsJoin (subCommaWs (wsJoin s)) := wsJoin_pyStrip _
    have hwj2 : wsJoin (subCommaWs (wsJoin s)) =
        trimRight isPySpace (subCommaWs (wsJoin s)) := by
      obtain ⟨t, hdec, ht⟩ := trimRight_decomp isPySpace (subCommaWs (wsJoin s))
      have hwords2 : words (subCommaWs (wsJoin s)) =
          words (trimRight isPySpace (subCommaWs (wsJoin s))) := by
        conv_lhs => rw [hdec]
        exact words_append_ws _ ht
      rw [wsJoin, hwords2, ← wsJoin]
      apply wsJoin_nf
      · rw [onlySpaceWs, List.all_eq_true]
        intro c hc
        have hcy := mem_trimRight hc
        have := onlySpaceWs_subCommaWs_wsJoin s
        rw [onlySpaceWs, List.all_eq_true] at this
        exact this c hcy
      · apply pairsOk_append_left (trimRight isPySpace (subCommaWs (wsJoin s)))
        rw [← hdec]
        exact noDoubleSpace_subCommaWs_wsJoin s
      · cases htr : trimRight isPySpace (subCommaWs (wsJoin s)) with
        | nil => rfl
        | cons c rest =>
          apply List.dropWhile_cons_of_neg
          have hcy : (subCommaWs (wsJoin s)).head? = some c := by
            rw [hdec, htr]
            rfl
          cases hyy : subCommaWs (wsJoin s) with
          | nil =>
            rw [hyy] at hcy
            cases hcy
          | cons c0 rest0 =>
            rw [hyy] at hcy
            injection hcy with hcy1
            subst hcy1
            rw [hyy] at hnl
            simp [head_not_ws_of_dropWhile_eq hnl]
      · exact trimRight_idem isPySpace _
    rw [hwj1, hwj2]
    have hrep : subCommaWs (trimRight isPySpace (subCommaWs (wsJoin s))) =
        subCommaWs (wsJoin s) := by
      rw [hyic]
      exact addr_replay (addrPieces s) (addrPieces_ne_nil s) hpieces
    rw [hrep, hsub]

/-! ## The name cleaner -/

theorem subWsRuns_id {z : Str} (hos : onlySpaceWs z = true)
    (hnd : noDoubleSpace z = true) : subWsRuns z = z := by
  induction z using subWsRuns.induct with
  | case1 => rw [subWsRuns]
  | case2 c cs hws ih =>
    have hcsp : c = ' ' := by
      rw [onlySpaceWs, List.all_eq_true] at hos
      have := hos c (List.mem_cons_self _ _)
      rw [hws] at this
      simpa using this
    have hdw : cs.dropWhile isPySpace = cs := by
      cases cs with
      | nil => rfl
      | cons d ds =>
        apply List.dropWhile_cons_of_neg
        rw [noDoubleSpace, pairsOk_cons_cons, Bool.and_eq_true] at hnd
        have := hnd.1
        rw [hws] at this
        simpa using this
    have hos2 : onlySpaceWs cs = true := by
      rw [onlySpaceWs, List.all_eq_true] at hos ⊢
      exact fun d hd => hos d (List.mem_cons_of_mem c hd)
    have hnd2 : noDoubleSpace cs = true := by
      rw [noDoubleSpace] at hnd ⊢
      exact pairsOk_tail hnd
    rw [hdw] at ih
    rw [subWsRuns, if_pos hws, hdw, hcsp, ih hos2 hnd2]
  | case3 c cs hws ih =>
    have hos2 : onlySpaceWs cs = true := by
      rw [onlySpaceWs, List.all_eq_true] at hos ⊢
      exact fun d hd => hos d (List.mem_cons_of_mem c hd)
    have hnd2 : noDoubleSpace cs = true := by
      rw [noDoubleSpace] at hnd ⊢
      exact pairsOk_tail hnd
    rw [subWsRuns, if_neg hws, ih hos2 hnd2]

theorem pyStrip_ic {L : List Str}
    (hL : ∀ w ∈ L, w ≠ [] ∧ ∀ c ∈ w, isPySpace c = false) :
    pyStrip (List.intercalate ( " ".toList) L) =
      List.intercalate ( " ".toList) L := by
  rw [pyStrip, dropWhile_intercalate hL, trimRight_intercalate hL]

theorem clean_name_eq {s : Str} (hguard : ¬ (s = "nan".toList ∨ s = [])) :
    clean_name (some s) =
      List.intercalate ( " ".toList) ((words s).map capWord) := by
  simp only [clean_name, if_neg hguard]
  rw [subWsRuns_id (onlySpaceWs_wsJoin s) (noDoubleSpace_wsJoin s),
    pyStrip_wsJoin, words_wsJoin]

theorem capWord_ne_nil {w : Str} (h : w ≠ []) : capWord w ≠ [] := by
  cases w with
  | nil => exact absurd rfl h
  | cons c cs => simp [capWord]

theorem capWord_no_ws {w : Str} (h : ∀ c ∈ w, isPySpace c = false) :
    ∀ c ∈ capWord w, isPySpace c = false := by
  cases w with
  | nil => intro c hc; cases hc
  | cons c cs =>
    intro d hd
    rw [capWord] at hd
    rcases List.mem_cons.mp hd with rfl | hd2
    · rw [isPySpace_toUpper]
      exact h c (List.mem_cons_self _ _)
    · obtain ⟨e, he, rfl⟩ := List.mem_map.mp hd2
      rw [isPySpace_toLower]
      exact h e (List.mem_cons_of_mem c he)

theorem capWord_idem (w : Str) : capWord (capWord w) = capWord w := by
  cases w with
  | nil => rfl
  | cons c cs =>
    rw [capWord, capWord, toUpper_toUpper, List.map_map]
    have : (Char.toLower ∘ Char.toLower) = Char.toLower :=
      funext toLower_toLower
    rw [this]

theorem capWords_props (s : Str) :
    ∀ w ∈ (words s).map capWord, w ≠ [] ∧ ∀ c ∈ w, isPySpace c = false := by
  intro w hw
  obtain ⟨u, hu, rfl⟩ := List.mem_map.mp hw
  exact ⟨capWord_ne_nil (words_mem s u hu).1,
    capWord_no_ws (words_mem s u hu).2⟩

/-- Cleaning a cleaned, re-stripped name gives it back. -/
theorem clean_name_roundtrip (s : Str) (hs : pyStrip s = s)
    (hsurv : pyStrip (clean_name (some s)) ≠ []) :
    clean_name (some (pyStrip (clean_name (some s)))) = clean_name (some s) := by
  by_cases hguard : s = "nan".toList ∨ s = []
  · exfalso
    apply hsurv
    have h0 : clean_name (some s) = [] := by
      simp only [clean_name, if_pos hguard]
    rw [h0]
    rfl
  · have hn := clean_name_eq hguard
    have hprops := capWords_props s
    have hstr : pyStrip (clean_name (some s)) = clean_name (some s) := by
      rw [hn]
      exact pyStrip_ic hprops
    rw [hstr]
    have hnenil : clean_name (some s) ≠ [] := by
      intro hcon
      apply hsurv
      rw [hcon]
      rfl
    have hnenan : clean_name (some s) ≠ "nan".toList := by
      intro hcon
      obtain ⟨w0, rest, hw0⟩ : ∃ w0 rest, (words s).map capWord = w0 :: rest := by
        cases hmap : (words s).map capWord with
        | nil =>
          rw [hn, hmap] at hnenil
          exact absurd rfl hnenil
        | cons w0 rest => exact ⟨w0, rest, rfl⟩
      obtain ⟨u0, hu0, hcap⟩ := List.mem_map.mp (hw0 ▸ List.mem_cons_self w0 rest)
      obtain ⟨c0, u0', rfl⟩ : ∃ c0 u0', u0 = c0 :: u0' := by
        cases u0 with
        | nil => exact absurd rfl (words_mem s _ hu0).1
        | cons c0 u0' => exact ⟨c0, u0', rfl⟩
      have hhead : (clean_name (some s)).head? = some (Char.toUpper c0) := by
        rw [hn, hw0]
        cases rest with
        | nil =>
          rw [ic_single, ← hcap]
          rfl
        | cons w1 rest1 =>
          rw [ic_cons _ _ (by simp), List.append_assoc,
            List.head?_append_of_ne_nil _ (hcap ▸ (by simp [capWord]))]
          rw [← hcap]
          rfl
      rw [hcon] at hhead
      have : Char.toUpper c0 = 'n' := by
        have hform : ( "nan".toList).head? = some 'n' := rfl
        rw [hform] at hhead
        exact (Option.some.inj hhead).symm
      exact toUpper_ne_n c0 this
    have hguard2 : ¬ (clean_name (some s) = "nan".toList ∨
        clean_name (some s) = []) := by
      rintro (h1 | h1)
      · exact hnenan h1
      · exact hnenil h1
    rw [clean_name_eq hguard2]
    conv_lhs => rw [hn, words_intercalate _ hprops]
    rw [List.map_map]
    have : (capWord ∘ capWord) = capWord := funext capWord_idem
    rw [this, hn]

/-! ## Deduplication lemmas -/

theorem dedupFirst_subset (seen : List Str) (l : List CRow) :
    ∀ r ∈ dedupFirst seen l, r ∈ l := by
  induction l generalizing seen with
  | nil => intro r hr; cases hr
  | cons a as ih =>
    intro r hr
    rw [dedupFirst] at hr
    by_cases hm : a.email ∈ seen
    · rw [if_pos hm] at hr
      exact List.mem_cons_of_mem a (ih seen r hr)
    · rw [if_neg hm] at hr
      rcases List.mem_cons.mp hr with rfl | hr2
      · exact List.mem_cons_self _ _
      · exact List.mem_cons_of_mem a (ih _ r hr2)

theorem dedupFirst_emails (seen : List Str) (l : List CRow) :
    ((dedupFirst seen l).map CRow.email).Nodup ∧
      ∀ r ∈ dedupFirst seen l, r.email ∉ seen := by
  induction l generalizing seen with
  | nil => exact ⟨List.nodup_nil, fun r hr => absurd hr (by simp [dedupFirst])⟩
  | cons a as ih =>
    rw [dedupFirst]
    by_cases hm : a.email ∈ seen
    · rw [if_pos hm]
      exact ih seen
    · rw [if_neg hm]
      obtain ⟨hnd, hseen⟩ := ih (a.email :: seen)
      refine ⟨?_, ?_⟩
      · rw [List.map_cons, List.nodup_cons]
        refine ⟨?_, hnd⟩
        intro hmem
        obtain ⟨r, hr, hre⟩ := List.mem_map.mp hmem
        exact hseen r hr (hre ▸ List.mem_cons_self _ _)
      · intro r hr
        rcases List.mem_cons.mp hr with rfl | hr2
        · exact hm
        · exact fun hcon => hseen r hr2 (List.mem_cons_of_mem _ hcon)

theorem dedupFirst_length_le (seen : List Str) (l : List CRow) :
    (dedupFirst seen l).length ≤ l.length := by
  induction l generalizing seen with
  | nil => simp [dedupFirst]
  | cons a as ih =>
    rw [dedupFirst]
    by_cases hm : a.email ∈ seen
    · rw [if_pos hm]
      exact Nat.le_succ_of_le (ih seen)
    · rw [if_neg hm]
      simpa using ih (a.email :: seen)

theorem dedupFirst_eq_of_length (seen : List Str) (l : List CRow)
    (h : (dedupFirst seen l).length = l.length) : dedupFirst seen l = l := by
  induction l generalizing seen with
  | nil => rfl
  | cons a as ih =>
    rw [dedupFirst] at h ⊢
    by_cases hm : a.email ∈ seen
    · rw [if_pos hm] at h ⊢
      have := dedupFirst_length_le seen as
      rw [h] at this
      simp at this
    · rw [if_neg hm] at h ⊢
      rw [List.length_cons, List.length_cons] at h
      rw [ih _ (Nat.succ_injective h)]

theorem dedupFirst_eq_of_nodup {l : List CRow} (seen : List Str)
    (hnd : (l.map CRow.email).Nodup) (hseen : ∀ r ∈ l, r.email ∉ seen) :
    dedupFirst seen l = l := by
  induction l generalizing seen with
  | nil => rfl
  | cons a as ih =>
    rw [dedupFirst, if_neg (hseen a (List.mem_cons_self _ _))]
    rw [List.map_cons, List.nodup_cons] at hnd
    congr 1
    apply ih _ hnd.2
    intro r hr
    intro hcon
    rcases List.mem_cons.mp hcon with h1 | h1
    · exact hnd.1 (h1 ▸ List.mem_map_of_mem CRow.email hr)
    · exact hseen r (List.mem_cons_of_mem a hr) h1

/-! ## The shape of the filter chain -/

/-- The staged form of `pipelineCore`: the four filters in order, and
one note per stage with a non-zero removal count. -/
theorem pipelineCore_spec (rows : List Row) :
    pipelineCore rows =
      ((dedupFirst []
          ((((rows.map cleanRow).filter
              (fun r => is_valid_email (some r.email))).filter
            (fun r => decide (pyStrip r.name ≠ []))).filter
            (fun r => decide (pyStrip r.address ≠ [])))),
        (([⟨.invalidEmail, (rows.map cleanRow).length -
              ((rows.map cleanRow).filter
                (fun r => is_valid_email (some r.email))).length⟩,
           ⟨.emptyName, ((rows.map cleanRow).filter
                (fun r => is_valid_email (some r.email))).length -
              (((rows.map cleanRow).filter
                (fun r => is_valid_email (some r.email))).filter
                (fun r => decide (pyStrip r.name ≠ []))).length⟩,
           ⟨.emptyAddress, (((rows.map cleanRow).filter
                (fun r => is_valid_email (some r.email))).filter
                (fun r => decide (pyStrip r.name ≠ []))).length -
              ((((rows.map cleanRow).filter
                (fun r => is_valid_email (some r.email))).filter
                (fun r => decide (pyStrip r.name ≠ []))).filter
                (fun r => decide (pyStrip r.address ≠ []))).length⟩,
           ⟨.duplicateEmail, ((((rows.map cleanRow).filter
                (fun r => is_valid_email (some r.email))).filter
                (fun r => decide (pyStrip r.name ≠ []))).filter
                (fun r => decide (pyStrip r.address ≠ []))).length -
              (dedupFirst []
                ((((rows.map cleanRow).filter
                  (fun r => is_valid_email (some r.email))).filter
                  (fun r => decide (pyStrip r.name ≠ []))).filter
                  (fun r => decide (pyStrip r.address ≠ [])))).length⟩] :
          List Note).filter (fun n => decide (n.count ≠ 0)))) := by
  rw [pipelineCore]
  set cl := rows.map cleanRow with hcl
  set s1 := cl.filter (fun r => is_valid_email (some r.email)) with hs1
  set s2 := s1.filter (fun r => decide (pyStrip r.name ≠ [])) with hs2
  set s3 := s2.filter (fun r => decide (pyStrip r.address ≠ [])) with hs3
  set s4 := dedupFirst [] s3 with hs4
  by_cases h4 : s3.length - s4.length ≠ 0
  · rw [if_pos h4]
    have hfix : s4 = s3 → False := by
      intro hcon
      apply h4
      rw [hcon]
      simp
    by_cases h1 : cl.length - s1.length ≠ 0 <;>
      by_cases h2 : s1.length - s2.length ≠ 0 <;>
        by_cases h3 : s2.length - s3.length ≠ 0 <;>
          simp [List.filter, h1, h2, h3, h4]
  · rw [if_neg h4]
    have hlen : s4.length = s3.length := by
      have := dedupFirst_length_le [] s3
      rw [← hs4] at this
      omega
    have heq : s4 = s3 := dedupFirst_eq_of_length [] s3 hlen
    rw [heq]
    have h4z : s3.length - s3.length = 0 := by omega
    by_cases h1 : cl.length - s1.length ≠ 0 <;>
      by_cases h2 : s1.length - s2.length ≠ 0 <;>
        by_cases h3 : s2.length - s3.length ≠ 0 <;>
          simp [List.filter, h1, h2, h3, h4z]

/-! ## Per-row facts and membership in the pipeline output -/

/-- Read a cleaned record back as a table row (re-running the pipeline
on its own output). -/
def rowOfC (r : CRow) : Row :=
  ⟨some r.name, some r.email, some r.phone, some r.address⟩

theorem pipelineCore_mem {rows : List Row} {r : CRow}
    (h : r ∈ (pipelineCore rows).1) :
    (∃ x ∈ rows, r = cleanRow x) ∧ is_valid_email (some r.email) = true ∧
      pyStrip r.name ≠ [] ∧ pyStrip r.address ≠ [] := by
  rw [pipelineCore_spec] at h
  have h3 := dedupFirst_subset _ _ r h
  have hp3 := (List.mem_filter.mp h3).2
  have h2 := (List.mem_filter.mp h3).1
  have hp2 := (List.mem_filter.mp h2).2
  have h1 := (List.mem_filter.mp h2).1
  have hp1 := (List.mem_filter.mp h1).2
  have h0 := (List.mem_filter.mp h1).1
  obtain ⟨x, hx, hxr⟩ := List.mem_map.mp h0
  exact ⟨⟨x, hx, hxr.symm⟩, hp1, by simpa using hp2, by simpa using hp3⟩

theorem pipelineCore_emails_nodup (rows : List Row) :
    (((pipelineCore rows).1).map CRow.email).Nodup := by
  rw [pipelineCore_spec]
  exact (dedupFirst_emails [] _).1

/-- A record of the pipeline output maps to itself when cleaned again. -/
theorem cleanRow_rowOfC {r : CRow}
    (hex : ∃ x : Row, r = cleanRow x)
    (hvalid : is_valid_email (some r.email) = true)
    (hname : pyStrip r.name ≠ [])
    (haddr : pyStrip r.address ≠ []) :
    cleanRow (rowOfC r) = r := by
  obtain ⟨x, rfl⟩ := hex
  have hname2 : (cleanRow x).name =
      clean_name (some (pyStrip (cellStr x.name))) := rfl
  have haddr2 : (cleanRow x).address =
      clean_address (some (pyStrip (cellStr x.address))) := rfl
  have hphone2 : (cleanRow x).phone = pyStrip (cellStr x.phone) := rfl
  have hnewname : (cleanRow (rowOfC (cleanRow x))).name =
      clean_name (some (pyStrip ((cleanRow x).name))) := rfl
  have hnewaddr : (cleanRow (rowOfC (cleanRow x))).address =
      clean_address (some (pyStrip ((cleanRow x).address))) := rfl
  have hnewphone : (cleanRow (rowOfC (cleanRow x))).phone =
      pyStrip ((cleanRow x).phone) := rfl
  have hu : (cleanRow x).email =
      (if pyStrip (cellStr x.email) = "nan".toList
        then pyStrip (cellStr x.email)
        else lowerStr (pyStrip (cellStr x.email))) := rfl
  have hE : (cleanRow x).email = lowerStr (pyStrip (cellStr x.email)) := by
    rw [hu]
    split
    · rename_i hnan
      exfalso
      rw [hu, if_pos hnan, hnan] at hvalid
      have : is_valid_email (some ( "nan".toList)) = false := by decide
      rw [this] at hvalid
      cases hvalid
    · rfl
  have hEstr : pyStrip ((cleanRow x).email) = (cleanRow x).email := by
    rw [hE, pyStrip_lowerStr, pyStrip_idem]
  have hEne : (cleanRow x).email ≠ "nan".toList := by
    intro hcon
    rw [hcon] at hvalid
    have : is_valid_email (some ( "nan".toList)) = false := by decide
    rw [this] at hvalid
    cases hvalid
  have hnewemail : (cleanRow (rowOfC (cleanRow x))).email =
      (if pyStrip ((cleanRow x).email) = "nan".toList
        then pyStrip ((cleanRow x).email)
        else lowerStr (pyStrip ((cleanRow x).email))) := rfl
  apply CRow.ext
  · rw [hnewname, hname2]
    exact clean_name_roundtrip _ (pyStrip_idem _) (hname2 ▸ hname)
  · rw [hnewemail, hEstr, if_neg hEne, hE, lowerStr_lowerStr, ← hE]
  · rw [hnewphone, hphone2, pyStrip_idem]
  · rw [hnewaddr, haddr2]
    exact clean_address_roundtrip _ (pyStrip_idem _) (haddr2 ▸ haddr)

/-- The email field of a validated output record is in normal form:
stripped, lower-cased, matched by the pattern, free of bad terms. -/
theorem valid_email_facts {r : CRow} (hex : ∃ x : Row, r = cleanRow x)
    (hvalid : is_valid_email (some r.email) = true) :
    emailMatch r.email = true ∧
      badTerms.any (fun t => hasSub t r.email) = false ∧
      pyStrip r.email = r.email ∧ lowerStr r.email = r.email := by
  obtain ⟨x, rfl⟩ := hex
  have hu : (cleanRow x).email =
      (if pyStrip (cellStr x.email) = "nan".toList
        then pyStrip (cellStr x.email)
        else lowerStr (pyStrip (cellStr x.email))) := rfl
  have hE : (cleanRow x).email = lowerStr (pyStrip (cellStr x.email)) := by
    rw [hu]
    split
    · rename_i hnan
      exfalso
      rw [hu, if_pos hnan, hnan] at hvalid
      have hf : is_valid_email (some ( "nan".toList)) = false := by decide
      rw [hf] at hvalid
      cases hvalid
    · rfl
  have hEstr : pyStrip ((cleanRow x).email) = (cleanRow x).email := by
    rw [hE, pyStrip_lowerStr, pyStrip_idem]
  have hlow : lowerStr ((cleanRow x).email) = (cleanRow x).email := by
    rw [hE, lowerStr_lowerStr]
  have hval2 : (if (cleanRow x).email = "nan".toList ∨ (cleanRow x).email = []
      then false
      else
        if badTerms.any
            (fun t => hasSub t (pyStrip (lowerStr ((cleanRow x).email))))
          then false
          else emailMatch (pyStrip (lowerStr ((cleanRow x).email)))) = true :=
    hvalid
  rw [hlow, hEstr] at hval2
  split at hval2
  · cases hval2
  · split at hval2
    · cases hval2
    · rename_i hbad
      exact ⟨hval2, by simpa using hbad, hEstr, hlow⟩

/-- Every record of the pipeline's output is a fixed point of the
per-row cleaning. -/
theorem cleanRow_fix {rows : List Row} :
    ∀ r ∈ (pipelineCore rows).1, cleanRow (rowOfC r) = r := by
  intro r hr
  obtain ⟨⟨x, _, hxr⟩, hv, hn, ha⟩ := pipelineCore_mem hr
  exact cleanRow_rowOfC ⟨x, hxr⟩ hv hn ha

/-- Re-running the filter chain on its own output removes nothing and
appends no note. -/
theorem pipelineCore_idem (rows : List Row) :
    pipelineCore (((pipelineCore rows).1).map rowOfC) =
      ((pipelineCore rows).1, []) := by
  have hmap : (((pipelineCore rows).1).map rowOfC).map cleanRow =
      (pipelineCore rows).1 := by
    rw [List.map_map]
    have h1 : ((pipelineCore rows).1).map (cleanRow ∘ rowOfC) =
        ((pipelineCore rows).1).map id :=
      List.map_congr_left (fun r hr => cleanRow_fix r hr)
    rw [h1, List.map_id]
  have hf1 : ((pipelineCore rows).1).filter
      (fun r => is_valid_email (some r.email)) = (pipelineCore rows).1 :=
    List.filter_eq_self.mpr (fun r hr => (pipelineCore_mem hr).2.1)
  have hf2 : ((pipelineCore rows).1).filter
      (fun r => decide (pyStrip r.name ≠ [])) = (pipelineCore rows).1 :=
    List.filter_eq_self.mpr (fun r hr => by
      simpa using (pipelineCore_mem hr).2.2.1)
  have hf3 : ((pipelineCore rows).1).filter
      (fun r => decide (pyStrip r.address ≠ [])) = (pipelineCore rows).1 :=
    List.filter_eq_self.mpr (fun r hr => by
      simpa using (pipelineCore_mem hr).2.2.2)
  have hded : dedupFirst [] ((pipelineCore rows).1) = (pipelineCore rows).1 :=
    dedupFirst_eq_of_nodup [] (pipelineCore_emails_nodup rows)
      (fun r _ => by simp)
  rw [pipelineCore_spec, hmap, hf1, hf2, hf3, hded]
  simp

/-! ## Phone independence -/

/-- Erase the phone cell of an input row. -/
def forgetPhoneR (r : Row) : Row := { r with phone := none }

/-- What an erased phone cell becomes downstream:
`str(nan).strip() = 'nan'`. -/
def forgetPhoneC (r : CRow) : CRow := { r with phone := "nan".toList }

theorem cleanRow_forgetPhone (r : Row) :
    cleanRow (forgetPhoneR r) = forgetPhoneC (cleanRow r) := rfl

theorem dedupFirst_forgetPhone (seen : List Str) (l : List CRow) :
    dedupFirst seen (l.map forgetPhoneC) =
      (dedupFirst seen l).map forgetPhoneC := by
  induction l generalizing seen with
  | nil => rfl
  | cons a as ih =>
    rw [List.map_cons, dedupFirst, dedupFirst]
    have he : (forgetPhoneC a).email = a.email := rfl
    rw [he]
    by_cases hm : a.email ∈ seen
    · rw [if_pos hm, if_pos hm, ih]
    · rw [if_neg hm, if_neg hm, List.map_cons, ih]

/-- The phone column influences neither the surviving rows (up to the
phone field itself) nor the removal notes. -/
theorem pipelineCore_forgetPhone (rows : List Row) :
    (pipelineCore (rows.map forgetPhoneR)).1 =
      ((pipelineCore rows).1).map forgetPhoneC ∧
    (pipelineCore (rows.map forgetPhoneR)).2 = (pipelineCore rows).2 := by
  have hmap : (rows.map forgetPhoneR).map cleanRow =
      (rows.map cleanRow).map forgetPhoneC := by
    rw [List.map_map, List.map_map]
    exact List.map_congr_left (fun r _ => cleanRow_forgetPhone r)
  have hc1 : ((fun r : CRow => is_valid_email (some r.email)) ∘ forgetPhoneC) =
      (fun r : CRow => is_valid_email (some r.email)) := rfl
  have hc2 : ((fun r : CRow => decide (pyStrip r.name ≠ [])) ∘ forgetPhoneC) =
      (fun r : CRow => decide (pyStrip r.name ≠ [])) := rfl
  have hc3 : ((fun r : CRow => decide (pyStrip r.address ≠ [])) ∘ forgetPhoneC) =
      (fun r : CRow => decide (pyStrip r.address ≠ [])) := rfl
  have h1 : ((rows.map cleanRow).map forgetPhoneC).filter
      (fun r => is_valid_email (some r.email)) =
      ((rows.map cleanRow).filter
        (fun r => is_valid_email (some r.email))).map forgetPhoneC := by
    rw [List.filter_map, hc1]
  have h2 : (((rows.map cleanRow).filter
        (fun r => is_valid_email (some r.email))).map forgetPhoneC).filter
      (fun r => decide (pyStrip r.name ≠ [])) =
      (((rows.map cleanRow).filter
        (fun r => is_valid_email (some r.email))).filter
        (fun r => decide (pyStrip r.name ≠ []))).map forgetPhoneC := by
    rw [List.filter_map, hc2]
  have h3 : ((((rows.map cleanRow).filter
        (fun r => is_valid_email (some r.email))).filter
        (fun r => decide (pyStrip r.name ≠ []))).map forgetPhoneC).filter
      (fun r => decide (pyStrip r.address ≠ [])) =
      ((((rows.map cleanRow).filter
        (fun r => is_valid_email (some r.email))).filter
        (fun r => decide (pyStrip r.name ≠ []))).filter
        (fun r => decide (pyStrip r.address ≠ []))).map forgetPhoneC := by
    rw [List.filter_map, hc3]
  constructor
  · rw [pipelineCore_spec, pipelineCore_spec, hmap, h1, h2, h3,
      dedupFirst_forgetPhone]
  · rw [pipelineCore_spec, pipelineCore_spec, hmap, h1, h2, h3,
      dedupFirst_forgetPhone]
    simp [List.length_map]

/-! ## The column reconciler against the specification's words -/

/-- The alias map exactly as §4.1 of the specification lists it
(the source's `column_renames` also carries an identity entry
`'name' → 'name'`). -/
def alias_map : List (Str × Str) :=
  [ ( "emial".toList, "email".toList),
    ( "e-mail".toList, "email".toList),
    ( "emai;".toList, "email".toList),
    ( "mobile".toList, "phone".toList),
    ( "phone number".toList, "phone".toList),
    ( "cell".toList, "phone".toList),
    ( "full name".toList, "name".toList),
    ( "contact name".toList, "name".toList),
    ( "links".toList, "name".toList),
    ( "link".toList, "name".toList),
    ( "full address".toList, "address".toList),
    ( "location".toList, "address".toList)]

/-- Alias lookup on a trimmed lower-case header, as the specification
words it. -/
def applyAliasClaim (h : Str) : Str :=
  (List.lookup h alias_map).getD h

/-- The column reconciler as the claim words it: lower-case and trim
the headers, apply the alias map; when `name` is missing and both
`first_name` and `last_name` are present, synthesize
`name = first_name + ' ' + last_name`; fail with every required column
that is still missing. -/
def reconcileClaim (t : RawTable) : Except (List Str) RawTable :=
  let hs := t.headers.map (fun h => applyAliasClaim (pyStrip (lowerStr h)))
  if "name".toList ∉ hs ∧ "first_name".toList ∈ hs ∧ "last_name".toList ∈ hs
    then
      let hs' := hs ++ [ "name".toList]
      let rows' := t.rows.map (fun row =>
        row ++ [synthName (cellAt hs row ( "first_name".toList))
                  (cellAt hs row ( "last_name".toList))])
      let missing := requiredColumns.filter (fun c => decide (c ∉ hs'))
      if missing = [] then .ok ⟨hs', rows'⟩ else .error missing
    else
      let missing := requiredColumns.filter (fun c => decide (c ∉ hs))
      if missing = [] then .ok ⟨hs, t.rows⟩ else .error missing

theorem applyRename_eq (h : Str) : applyRename h = applyAliasClaim h := by
  by_cases hn : h = "name".toList
  · subst hn; rfl
  · have hb : (h == "name".toList) = false := by
      simpa using hn
    have : List.lookup h column_renames = List.lookup h alias_map := by
      simp only [column_renames, alias_map, List.lookup, hb]
    rw [applyRename, applyAliasClaim, this]

theorem decide_eq_beq (c d : Str) : decide (c = d) = (c == d) := by
  by_cases h : c = d <;> simp [h]

theorem required_filter_append {hs : List Str}
    (hn : "name".toList ∉ hs) :
    requiredColumns.filter
        (fun c => decide (c ∉ hs ++ [ "name".toList])) =
      (requiredColumns.filter
        (fun c => decide (c ∉ hs))).erase ( "name".toList) := by
  have hnodup : (requiredColumns.filter
      (fun c => decide (c ∉ hs))).Nodup := by
    apply List.Nodup.filter
    decide
  rw [List.Nodup.erase_eq_filter hnodup, List.filter_filter]
  apply List.filter_congr
  intro c _
  by_cases h1 : c ∈ hs <;> by_cases h2 : c = "name".toList
  · exact absurd (h2 ▸ h1) hn
  all_goals simp [List.mem_append, h1, h2, bne, Bool.not_not, beq_iff_eq,
    decide_eq_beq]

/-! ## Remaining run-level helpers -/

/-- A successful run's output comes from a successful reconciliation
followed by the filter chain on the four selected columns. -/
theorem clean_data_ok {ie eo wo fo le db em : Bool} {t : RawTable}
    {out : Output}
    (h : (clean_data ie eo wo fo le db em t).result = .ok out) :
    ∃ t', reconcile t = .ok t' ∧
      out.header = requiredColumns ∧
      out.rows = (pipelineCore (selectRows t')).1 ∧
      out.notes = (pipelineCore (selectRows t')).2 := by
  simp only [clean_data] at h
  split at h
  · cases h
  · split at h
    · cases h
    · rename_i t' hrec
      split at h
      · cases h
      · split at h
        · cases h
        · have h' : (Except.ok
              (⟨requiredColumns, (pipelineCore (selectRows t')).1,
                (pipelineCore (selectRows t')).2⟩ : Output) :
              Except PyErr Output) = .ok out := h
          have h2 := Except.ok.inj h'
          exact ⟨t', hrec, by rw [← h2], by rw [← h2], by rw [← h2]⟩

/-- Reconciliation does not add rows to an empty table. -/
theorem reconcile_rows_nil {t t' : RawTable}
    (h : reconcile t = .ok t') (hz : t.rows = []) : t'.rows = [] := by
  simp only [reconcile] at h
  split at h
  · injection h with h2
    rw [← h2]
    exact hz
  · split at h
    · split at h
      · injection h with h2
        rw [← h2]
        show t.rows.map _ = []
        rw [hz]
        rfl
      · exact Except.noConfusion h
    · exact Except.noConfusion h

/-! ## Spec-side predicates -/

/-- The email-validity condition exactly as the claim words it:
non-missing, and the lower-cased trimmed value matches the pattern and
contains none of the disallowed substrings. -/
def emailValidClaim (cell : Cell) : Bool :=
  match cell with
  | none => false
  | some s =>
    if s = "nan".toList ∨ s = [] then false
    else
      let e := pyStrip (lowerStr s)
      emailMatch e && !(badTerms.any (fun t => hasSub t e))

/-- The address normal form the claim asserts: whitespace runs are
single plain spaces, each comma is followed by exactly one space and
preceded by none, and no comma run survives. -/
def addrClaimOk (s : Str) : Bool :=
  onlySpaceWs s && noDoubleSpace s && commaSpace s &&
    noSpaceBeforeComma s && noAdjComma s

/-! ## The claims -/

/-- C1: the email filter keeps a cell value if and only if it is
non-missing and its lower-cased, trimmed form matches the pattern
`^[a-zA-Z0-9._%+-]+@[a-zA-Z0-9.-]+\.[a-zA-Z]{2,}$` and contains none
of the disallowed substrings `whatsapp`, `messenger`, `facebook`,
`test`, `example`. -/
theorem C1_email_filter (cell : Cell) :
    is_valid_email cell = emailValidClaim cell := by
  match cell with
  | none => rfl
  | some s =>
    show (if s = "nan".toList ∨ s = [] then false
        else
          if badTerms.any (fun t => hasSub t (pyStrip (lowerStr s)))
            then false
            else emailMatch (pyStrip (lowerStr s))) =
      (if s = "nan".toList ∨ s = [] then false
        else emailMatch (pyStrip (lowerStr s)) &&
          !(badTerms.any (fun t => hasSub t (pyStrip (lowerStr s)))))
    split
    · rfl
    · cases hb : badTerms.any (fun t => hasSub t (pyStrip (lowerStr s))) <;>
      cases he : emailMatch (pyStrip (lowerStr s)) <;> simp [hb, he]

/-- C2: every run that completes returns the four required columns in
order, and every surviving record has a pattern-valid, bad-term-free
email, a non-empty trimmed name and address, and an email no other
surviving record shares. -/
theorem C2_output_invariants (ie eo wo fo le db em : Bool)
    (t : RawTable) (out : Output)
    (h : (clean_data ie eo wo fo le db em t).result = .ok out) :
    out.header = requiredColumns ∧
    (∀ r ∈ out.rows,
        emailMatch r.email = true ∧
        badTerms.any (fun b => hasSub b r.email) = false ∧
        pyStrip r.name ≠ [] ∧ pyStrip r.address ≠ []) ∧
    (out.rows.map CRow.email).Nodup := by
  obtain ⟨t', hrec, hh, hrows, hnotes⟩ := clean_data_ok h
  refine ⟨hh, ?_, ?_⟩
  · intro r hr
    rw [hrows] at hr
    obtain ⟨⟨x, hx, hxr⟩, hv, hn, ha⟩ := pipelineCore_mem hr
    obtain ⟨hm, hb, _, _⟩ := valid_email_facts ⟨x, hxr⟩ hv
    exact ⟨hm, hb, hn, ha⟩
  · rw [hrows]
    exact pipelineCore_emails_nodup _

/-- C2 witness: a concrete one-row table that passes every filter. -/
theorem C2_output_invariants_witness :
    (clean_data true false true false true false true
        ⟨requiredColumns,
          [[some ( "al".toList), some ( "a@bc.de".toList),
            some ( "1".toList), some ( "x".toList)]]⟩).result =
      .ok ⟨requiredColumns,
        [⟨ "Al".toList, "a@bc.de".toList, "1".toList, "x".toList⟩], []⟩ ∧
    ((⟨requiredColumns,
        [⟨ "Al".toList, "a@bc.de".toList, "1".toList, "x".toList⟩],
        []⟩ : Output).header = requiredColumns ∧
     (∀ r ∈ (⟨requiredColumns,
        [⟨ "Al".toList, "a@bc.de".toList, "1".toList, "x".toList⟩],
        []⟩ : Output).rows,
        emailMatch r.email = true ∧
        badTerms.any (fun b => hasSub b r.email) = false ∧
        pyStrip r.name ≠ [] ∧ pyStrip r.address ≠ []) ∧
     ((⟨requiredColumns,
        [⟨ "Al".toList, "a@bc.de".toList, "1".toList, "x".toList⟩],
        []⟩ : Output).rows.map CRow.email).Nodup) := by
  have hn0 : clean_name (some ( "al".toList)) =
      List.intercalate ( " ".toList) ((words ( "al".toList)).map capWord) :=
    clean_name_eq (by decide)
  have hws1 : words ( "al".toList) = [ "al".toList] :=
    words_single (by decide) (by decide)
  have hn : clean_name (some ( "al".toList)) = "Al".toList := by
    rw [hn0, hws1]
    decide
  have hws2 : words ( "x".toList) = [ "x".toList] :=
    words_single (by decide) (by decide)
  have hw : wsJoin ( "x".toList) = "x".toList := by
    rw [wsJoin, hws2]
    decide
  have hsc1 : subCommaWs ( "x".toList) = "x".toList :=
    subCommaWs_no_comma (by decide)
  have hsc2 : subCommas ( "x".toList) = "x".toList :=
    subCommas_no_comma (by decide)
  have ha : clean_address (some ( "x".toList)) = "x".toList := by
    simp only [clean_address]
    rw [if_neg (by decide), hw, hsc1, hsc2]
  have hc : cleanRow ⟨some ( "al".toList), some ( "a@bc.de".toList),
      some ( "1".toList), some ( "x".toList)⟩ =
      ⟨ "Al".toList, "a@bc.de".toList, "1".toList, "x".toList⟩ := by
    have hc0 : cleanRow ⟨some ( "al".toList), some ( "a@bc.de".toList),
        some ( "1".toList), some ( "x".toList)⟩ =
        ⟨clean_name (some ( "al".toList)), "a@bc.de".toList, "1".toList,
          clean_address (some ( "x".toList))⟩ := rfl
    rw [hc0, hn, ha]
  have hpc : pipelineCore [⟨some ( "al".toList), some ( "a@bc.de".toList),
      some ( "1".toList), some ( "x".toList)⟩] =
      ([⟨ "Al".toList, "a@bc.de".toList, "1".toList, "x".toList⟩], []) := by
    simp only [pipelineCore, List.map_cons, List.map_nil, hc]
    decide
  have h0 : (clean_data true false true false true false true
      ⟨requiredColumns, [[some ( "al".toList), some ( "a@bc.de".toList),
        some ( "1".toList), some ( "x".toList)]]⟩).result =
      .ok ⟨requiredColumns,
        (pipelineCore [⟨some ( "al".toList), some ( "a@bc.de".toList),
          some ( "1".toList), some ( "x".toList)⟩]).1,
        (pipelineCore [⟨some ( "al".toList), some ( "a@bc.de".toList),
          some ( "1".toList), some ( "x".toList)⟩]).2⟩ := rfl
  have h1 : (clean_data true false true false true false true
      ⟨requiredColumns, [[some ( "al".toList), some ( "a@bc.de".toList),
        some ( "1".toList), some ( "x".toList)]]⟩).result =
      .ok ⟨requiredColumns,
        [⟨ "Al".toList, "a@bc.de".toList, "1".toList, "x".toList⟩], []⟩ := by
    rw [h0, hpc]
  exact ⟨h1, C2_output_invariants true false true false true false true
    ⟨requiredColumns, [[some ( "al".toList), some ( "a@bc.de".toList),
      some ( "1".toList), some ( "x".toList)]]⟩
    ⟨requiredColumns,
      [⟨ "Al".toList, "a@bc.de".toList, "1".toList, "x".toList⟩], []⟩ h1⟩

/-- C3: the column reconciler is exactly the claim's reconciler:
lower-case and trim the headers, apply the alias map, synthesize
`name` from `first_name` and `last_name` when possible, and fail with
every still-missing required column. -/
theorem C3_reconciler (t : RawTable) : reconcile t = reconcileClaim t := by
  have hfun : (fun h => applyAliasClaim (pyStrip (lowerStr h))) =
      (fun h : Str => applyRename (pyStrip (lowerStr h))) :=
    funext (fun h => (applyRename_eq _).symm)
  simp only [reconcile, reconcileClaim]
  rw [hfun]
  set hs := t.headers.map (fun h => applyRename (pyStrip (lowerStr h)))
    with hhs
  set m0 := requiredColumns.filter (fun c => decide (c ∉ hs)) with hm0
  have hmem : "name".toList ∈ m0 ↔ "name".toList ∉ hs := by
    rw [hm0, List.mem_filter]
    constructor
    · intro hc
      simpa using hc.2
    · intro hnot
      exact ⟨by decide, by simpa using hnot⟩
  by_cases hnm : "name".toList ∈ hs
  · have hsynthF : ¬ ( "name".toList ∉ hs ∧ "first_name".toList ∈ hs ∧
        "last_name".toList ∈ hs) := by
      intro hc
      exact hc.1 hnm
    rw [if_neg hsynthF]
    by_cases hm : m0 = []
    · rw [if_pos hm, if_pos hm]
    · have hcondF : ¬ ( "name".toList ∈ m0 ∧ "first_name".toList ∈ hs ∧
          "last_name".toList ∈ hs) := by
        intro hc
        exact (hmem.mp hc.1) hnm
      rw [if_neg hm, if_neg hcondF, if_neg hm]
  · have hin : "name".toList ∈ m0 := hmem.mpr hnm
    have hm : m0 ≠ [] := List.ne_nil_of_mem hin
    rw [if_neg hm]
    by_cases hfl : "first_name".toList ∈ hs ∧ "last_name".toList ∈ hs
    · have hc1 : "name".toList ∈ m0 ∧ "first_name".toList ∈ hs ∧
          "last_name".toList ∈ hs := ⟨hin, hfl.1, hfl.2⟩
      have hc2 : "name".toList ∉ hs ∧ "first_name".toList ∈ hs ∧
          "last_name".toList ∈ hs := ⟨hnm, hfl.1, hfl.2⟩
      rw [if_pos hc1, if_pos hc2, required_filter_append hnm]
    · have h1 : ¬ ( "name".toList ∈ m0 ∧ "first_name".toList ∈ hs ∧
          "last_name".toList ∈ hs) := by
        intro hc
        exact hfl ⟨hc.2.1, hc.2.2⟩
      have h2 : ¬ ( "name".toList ∉ hs ∧ "first_name".toList ∈ hs ∧
          "last_name".toList ∈ hs) := by
        intro hc
        exact hfl ⟨hc.2.1, hc.2.2⟩
      rw [if_neg h1, if_neg h2, if_neg hm]

/-- C4: the four filters run in the fixed order email validity,
non-empty name, non-empty address, duplicate email, and the note list
holds exactly one note per stage — the stage's reason with its removal
count — for precisely the stages whose removal count is non-zero. -/
theorem C4_filter_chain (rows : List Row) :
    pipelineCore rows =
      ((dedupFirst []
          ((((rows.map cleanRow).filter
              (fun r => is_valid_email (some r.email))).filter
            (fun r => decide (pyStrip r.name ≠ []))).filter
            (fun r => decide (pyStrip r.address ≠ [])))),
        (([⟨.invalidEmail, (rows.map cleanRow).length -
              ((rows.map cleanRow).filter
                (fun r => is_valid_email (some r.email))).length⟩,
           ⟨.emptyName, ((rows.map cleanRow).filter
                (fun r => is_valid_email (some r.email))).length -
              (((rows.map cleanRow).filter
                (fun r => is_valid_email (some r.email))).filter
                (fun r => decide (pyStrip r.name ≠ []))).length⟩,
           ⟨.emptyAddress, (((rows.map cleanRow).filter
                (fun r => is_valid_email (some r.email))).filter
                (fun r => decide (pyStrip r.name ≠ []))).length -
              ((((rows.map cleanRow).filter
                (fun r => is_valid_email (some r.email))).filter
                (fun r => decide (pyStrip r.name ≠ []))).filter
                (fun r => decide (pyStrip r.address ≠ []))).length⟩,
           ⟨.duplicateEmail, ((((rows.map cleanRow).filter
                (fun r => is_valid_email (some r.email))).filter
                (fun r => decide (pyStrip r.name ≠ []))).filter
                (fun r => decide (pyStrip r.address ≠ []))).length -
              (dedupFirst []
                ((((rows.map cleanRow).filter
                  (fun r => is_valid_email (some r.email))).filter
                  (fun r => decide (pyStrip r.name ≠ []))).filter
                  (fun r => decide (pyStrip r.address ≠ [])))).length⟩] :
          List Note).filter (fun n => decide (n.count ≠ 0)))) :=
  pipelineCore_spec rows

/-- C5 counterexample: on `a,,b` the address cleaner yields `a, , b`,
whose second comma is preceded by a space and whose comma run was not
collapsed into one comma. -/
theorem C5_counterexample :
    clean_address (some ( "a,,b".toList)) = "a, , b".toList ∧
    addrClaimOk (clean_address (some ( "a,,b".toList))) = false := by
  have hw : wsJoin ( "a,,b".toList) = "a,,b".toList := by
    rw [wsJoin, words_single (by decide) (by decide)]
    decide
  have hca : clean_address (some ( "a,,b".toList)) =
      subCommas (subCommaWs (wsJoin ( "a,,b".toList))) := by
    simp only [clean_address]
    rw [if_neg (by decide)]
  rw [hca, hw, subCommaWs_char]
  constructor <;> decide

/-- C5 (amended): the address cleaner's output uses only plain single
spaces, every comma in it is followed by exactly one space, and no two
commas are adjacent; but a comma may be preceded by a space and comma
runs of the input survive as `, ,` sequences. -/
theorem C5_address_normalization (s : Str) :
    onlySpaceWs (clean_address (some s)) = true ∧
    noDoubleSpace (clean_address (some s)) = true ∧
    commaSpace (clean_address (some s)) = true ∧
    noAdjComma (clean_address (some s)) = true := by
  by_cases hguard : s = "nan".toList ∨ s = []
  · have h0 : clean_address (some s) = [] := by
      simp only [clean_address, if_pos hguard]
    rw [h0]
    exact ⟨rfl, rfl, rfl, rfl⟩
  · have hca : clean_address (some s) =
        subCommas (subCommaWs (wsJoin s)) := by
      simp only [clean_address, if_neg hguard]
    have hcs := commaSpace_subCommaWs_wsJoin s
    have hna := noAdjComma_of_commaSpace hcs
    rw [hca, subCommas_eq_self hna]
    exact ⟨onlySpaceWs_subCommaWs_wsJoin s,
      noDoubleSpace_subCommaWs_wsJoin s, hcs, hna⟩

/-- C6: the documented retry to the fallback path happens only when
the output name was auto-generated; with a caller-supplied
`output_file` the `timestamp` local is unbound, so a permission error
raises `UnboundLocalError` instead of retrying, for either fallback
outcome. -/
theorem C6_fallback_write :
    (∀ fb : Bool, saveStep true false fb = .error .unboundLocalTimestamp) ∧
    (∀ fb : Bool, saveStep false false fb =
      if fb then .ok [.wroteFallback] else .error .permissionDenied) ∧
    (∀ eo fb : Bool, saveStep eo true fb = .ok [.wrotePrimary]) := by
  decide

/-- C7: the pipeline is idempotent: every record of the output is a
fixed point of the per-row cleaning, and re-running the filter chain
on the output removes no row and appends no note. -/
theorem C7_idempotent (rows : List Row) :
    (∀ r ∈ (pipelineCore rows).1, cleanRow (rowOfC r) = r) ∧
    pipelineCore (((pipelineCore rows).1).map rowOfC) =
      ((pipelineCore rows).1, []) :=
  ⟨cleanRow_fix, pipelineCore_idem rows⟩

/-- C8: two runs differing only in `debug_mode` and `email_only`
write the same files and return the same table or error; the flags
change only the diagnostic console lines. -/
theorem C8_flag_independence (ie eo wo fo le db1 em1 db2 em2 : Bool)
    (t : RawTable) :
    (clean_data ie eo wo fo le db1 em1 t).result =
      (clean_data ie eo wo fo le db2 em2 t).result ∧
    (clean_data ie eo wo fo le db1 em1 t).events =
      (clean_data ie eo wo fo le db2 em2 t).events := by
  constructor <;>
  · simp only [clean_data]
    split
    · rfl
    split
    · rfl
    split
    · rfl
    split <;> rfl

/-- C9: on an input table with a header and zero data rows the run
writes the (empty) primary output file and then fails with the
division by zero of the summary percentage. -/
theorem C9_zero_rows (eo fo le db em : Bool) (t t' : RawTable)
    (hrec : reconcile t = .ok t') (hz : t.rows = []) :
    clean_data true eo true fo le db em t =
      ⟨[.wrotePrimary], [], .error .divisionByZero⟩ := by
  have hrows : t'.rows = [] := reconcile_rows_nil hrec hz
  have hsel : selectRows t' = [] := by
    rw [selectRows, hrows]
    rfl
  simp [clean_data, hrec, hsel, saveStep, hz]

/-- C9 witness: the concrete empty table with canonical headers. -/
theorem C9_zero_rows_witness :
    reconcile ⟨requiredColumns, []⟩ = .ok ⟨requiredColumns, []⟩ ∧
    clean_data true false true false true true true ⟨requiredColumns, []⟩ =
      ⟨[.wrotePrimary], [], .error .divisionByZero⟩ :=
  ⟨by decide, C9_zero_rows false false true true true
    ⟨requiredColumns, []⟩ ⟨requiredColumns, []⟩ (by decide) rfl⟩

/-- C10 counterexample: in a one-row table whose phone cell is null
the phone column holds no string cell, so it is float64, line 85 skips
it, and the null phone is not coerced to the string `'nan'`: it stays
NaN (and `to_csv` writes it as an empty field) — while a null cell of
a phone column that does hold a value would read back as `'nan'`. -/
theorem C10_counterexample :
    colObject ([(⟨some ( "al".toList), some ( "a@bc.de".toList), none,
        some ( "x".toList)⟩ : Row)].map Row.phone) = false ∧
    stripCell false none = none ∧
    stripCell false none ≠ some ( "nan".toList) ∧
    stripCell true none = some ( "nan".toList) := by
  exact ⟨rfl, rfl, by decide, by decide⟩

/-- C10 (amended): the phone column is only string-coerced and
whitespace-stripped, and only when line 85's dtype guard sees an
object column — one holding at least one string cell; a null phone in
such a column becomes the literal `'nan'` and that stripped value is
retained in the output unchanged; in an entirely null phone column the
strip is skipped and every null survives as NaN (written as an empty
field); and no filter consults the phone column: erasing every phone
cell changes neither which rows survive (beyond the phone field
itself) nor the removal notes. -/
theorem C10_phone_guarded (rows : List Row) :
    (colObject (rows.map Row.phone) = true ↔
      ∃ r ∈ rows, (r.phone).isSome = true) ∧
    (∀ c : Cell, stripCell true c = some (pyStrip (cellStr c))) ∧
    stripCell true none = some ( "nan".toList) ∧
    (∀ r : Row, (cleanRow r).phone = pyStrip (cellStr r.phone)) ∧
    (colObject (rows.map Row.phone) = false →
      ∀ r ∈ rows, stripCell false r.phone = none) ∧
    ((pipelineCore (rows.map forgetPhoneR)).1 =
       ((pipelineCore rows).1).map forgetPhoneC ∧
     (pipelineCore (rows.map forgetPhoneR)).2 = (pipelineCore rows).2) := by
  refine ⟨?_, fun c => rfl, by decide, fun r => rfl, ?_,
    pipelineCore_forgetPhone rows⟩
  · rw [colObject, List.any_eq_true]
    constructor
    · rintro ⟨c, hc, hs⟩
      obtain ⟨r, hr, rfl⟩ := List.mem_map.mp hc
      exact ⟨r, hr, hs⟩
    · rintro ⟨r, hr, hs⟩
      exact ⟨r.phone, List.mem_map_of_mem _ hr, hs⟩
  · intro hfalse r hr
    have hnone : r.phone = none := by
      cases hp : r.phone with
      | none => rfl
      | some s =>
        exfalso
        have htrue : colObject (rows.map Row.phone) = true := by
          rw [colObject, List.any_eq_true]
          refine ⟨r.phone, List.mem_map_of_mem _ hr, ?_⟩
          rw [hp]
          rfl
        rw [htrue] at hfalse
        cases hfalse
    show stripCell false r.phone = none
    rw [hnone]
    rfl

end CleanPy
